import Mathlib

/-!
Verification of the scan-line fill engine and polygon model of
`src/rasterizer/rasterizer.js`.

Modelling conventions for the JavaScript source:

* JavaScript numbers are modelled by `JSNum`: either an exact rational
  (`fin`), an infinity (`posInf`/`negInf`), or `nan`.  The source performs
  floating-point arithmetic; the model computes with exact rationals, so
  float rounding error is idealised away, while the division-by-zero and
  NaN-propagation behaviour that the algorithm depends on is modelled
  exactly.  Signed zero is not distinguished: the only place a zero sign
  could matter is the sign of an infinite quotient, and every infinite
  quotient is floored to `nan` immediately afterwards, which erases the
  sign.
* The two `for` loops of `computeFilledSquares` have rational loop
  counters stepped by `tileSize`; with a positive `tileSize` they run a
  finite, computable number of iterations, which the model takes as an
  explicit iteration count.  (With `tileSize <= 0` the JavaScript loops
  would not terminate; the model returns zero iterations there, and every
  theorem below assumes a positive `tileSize`.)
* JavaScript objects used as dictionaries (`squares`, `xValues`) are
  modelled as association lists with rational keys; numeric keys convert
  to distinct strings for distinct numbers, so rational keys are faithful.
-/

/-- Model of a JavaScript number: an exact rational, an infinity, or NaN. -/
inductive JSNum where
  | nan : JSNum
  | posInf : JSNum
  | negInf : JSNum
  | fin (q : ℚ) : JSNum
  deriving DecidableEq, Repr

/-- Division of two finite numbers, as in JavaScript: division by (positive)
zero yields an infinity of the sign of the dividend, and 0/0 yields NaN. -/
def jsDivQ (a m : ℚ) : JSNum :=
  if m = 0 then (if a = 0 then .nan else if 0 < a then .posInf else .negInf)
  else .fin (a / m)

/-- Truncation toward zero, the rounding used by the JavaScript `%` operator. -/
def ratTrunc (q : ℚ) : ℤ :=
  if q < 0 then ⌈q⌉ else ⌊q⌋

/-- The JavaScript remainder `n % modulo` on finite numbers (truncated
division), faithful for every nonzero modulus. -/
def jsModQ (n modulo : ℚ) : ℚ :=
  n - modulo * (ratTrunc (n / modulo) : ℚ)

/-- The helper `floor(n, modulo)` of the source, on finite values:
`Math.floor(n - n % modulo)`. -/
def floor (n modulo : ℚ) : ℚ :=
  ((⌊n - jsModQ n modulo⌋ : ℤ) : ℚ)

/-- The helper `floor(n, modulo)` on a general JavaScript number: an infinite
or NaN argument yields NaN (`Infinity % m` is NaN), as does a zero modulus. -/
def jsFloorNum (x : JSNum) (modulo : ℚ) : JSNum :=
  match x with
  | .fin q => if modulo = 0 then .nan else .fin (floor q modulo)
  | _ => .nan

/-- Math.min: NaN-propagating minimum. -/
def jsMin : JSNum → JSNum → JSNum
  | .nan, _ => .nan
  | _, .nan => .nan
  | .negInf, _ => .negInf
  | _, .negInf => .negInf
  | .posInf, y => y
  | x, .posInf => x
  | .fin a, .fin b => .fin (min a b)

/-- Math.max: NaN-propagating maximum. -/
def jsMax : JSNum → JSNum → JSNum
  | .nan, _ => .nan
  | _, .nan => .nan
  | .posInf, _ => .posInf
  | _, .posInf => .posInf
  | .negInf, y => y
  | x, .negInf => x
  | .fin a, .fin b => .fin (max a b)

/-- An edge as `computeFilledSquares` reads it: the four parsed (integer in
practice, rational in the model) endpoint coordinates `x1 y1 x2 y2`. -/
structure EdgeQ where
  x1 : ℚ
  y1 : ℚ
  x2 : ℚ
  y2 : ℚ
  deriving DecidableEq, Repr

/-- The half-tile offset applied at the top of `accumulateSquaresForEdge`:
`x + tileSize/2`, `y - tileSize/2` on both endpoints. -/
def eShift (e : EdgeQ) (T : ℚ) : EdgeQ :=
  ⟨e.x1 + T / 2, e.y1 - T / 2, e.x2 + T / 2, e.y2 - T / 2⟩

/-- The slopeE `m = run === 0 ? 0 : rise / run` of the source. -/
def slopeE (e : EdgeQ) : ℚ :=
  if e.x2 - e.x1 = 0 then 0 else (e.y2 - e.y1) / (e.x2 - e.x1)

/-- The interceptE `b = y1 - m * x1` of the source. -/
def interceptE (e : EdgeQ) : ℚ :=
  e.y1 - slopeE e * e.x1

/-- Math.min(y1, y2) of an edge. -/
def yaE (e : EdgeQ) : ℚ := min e.y1 e.y2

/-- Math.max(y1, y2) of an edge. -/
def ybE (e : EdgeQ) : ℚ := max e.y1 e.y2

/-- The raw x-intersection `(y - b) / m` of a shifted edge with scan-line
`y`, a JavaScript division that can be infinite or NaN when `m = 0`. -/
def xAtScan (e : EdgeQ) (y : ℚ) : JSNum :=
  jsDivQ (y - interceptE e) (slopeE e)

/-- The first value of the scan loop counter, `floor(ya, tileSize) + tileSize`. -/
def scanStart (e : EdgeQ) (T : ℚ) : ℚ :=
  floor (yaE e) T + T

/-- Number of iterations of `for (let y = start; y <= yb; y += T)`. -/
def scanCount (start yb T : ℚ) : ℕ :=
  if T ≤ 0 then 0 else if yb < start then 0 else (⌊(yb - start) / T⌋ + 1).toNat

/-- The scan-lines visited by the source loop for one edge: the values
`start + k * T` for `k` below the iteration count, computed on the shifted
edge. -/
def scanlines (e : EdgeQ) (T : ℚ) : List ℚ :=
  (List.range (scanCount (scanStart (eShift e T) T) (ybE (eShift e T)) T)).map
    (fun (k : ℕ) => scanStart (eShift e T) T + (k : ℚ) * T)

/-- The crossings one edge contributes, in loop order: at each visited
scan-line `y` the pair of `y` with `x = floor((y - b) / m, tileSize)`. -/
def crossingsOf (e : EdgeQ) (T : ℚ) : List (ℚ × JSNum) :=
  (scanlines e T).map (fun y => (y, jsFloorNum (xAtScan (eShift e T) y) T))

/-- The `squares` accumulator: an association list from column index to the
list of row indices pushed for that column, in insertion order, exactly as
the JavaScript object of arrays. -/
abbrev Squares := List (ℚ × List ℚ)

/-- squares[c].push(r), creating squares[c] = [] first if absent. -/
def pushTile (sq : Squares) (c r : ℚ) : Squares :=
  match sq with
  | [] => [(c, [r])]
  | (k, rows) :: rest =>
    if k = c then (k, rows ++ [r]) :: rest else (k, rows) :: pushTile rest c r

/-- Membership of a (column, row) pair in the accumulated squares. -/
def containsTile (sq : Squares) (c r : ℚ) : Bool :=
  match sq with
  | [] => false
  | (k, rows) :: rest => if k = c then decide (r ∈ rows) else containsTile rest c r

/-- Number of iterations of `for (let tileX = xa; tileX < xb; tileX += T)`. -/
def spanCount (xa xb T : ℚ) : ℕ :=
  if T ≤ 0 then 0 else if xb ≤ xa then 0 else (⌈(xb - xa) / T⌉).toNat

/-- The emission loop of the source: starting from `xa` and stepping by the
tile size while below `xb`, push the tile `(tileX / T, y / T)`.  A NaN bound
(the only non-finite value that reaches this loop) gives zero iterations,
because every comparison against NaN is false. -/
def pushSpan (T y : ℚ) (xa xb : JSNum) (sq : Squares) : Squares :=
  match xa, xb with
  | .fin a, .fin b =>
    (List.range (spanCount a b T)).foldl
      (fun s (k : ℕ) => pushTile s ((a + (k : ℚ) * T) / T) (y / T)) sq
  | _, _ => sq

/-- The `xValues` pending-crossing table: an association list from scan-line
to the recorded (floored) x value. -/
abbrev XVals := List (ℚ × JSNum)

/-- Lookup of `xValues[y]`. -/
def lookupX : XVals → ℚ → Option JSNum
  | [], _ => none
  | (k, v) :: rest, y => if k = y then some v else lookupX rest y

/-- Assignment `xValues[y] = v`. -/
def setX : XVals → ℚ → JSNum → XVals
  | [], y, v => [(y, v)]
  | (k, w) :: rest, y, v =>
    if k = y then (k, v) :: rest else (k, w) :: setX rest y v

/-- Deletion `delete xValues[y]`. -/
def delX : XVals → ℚ → XVals
  | [], _ => []
  | (k, w) :: rest, y => if k = y then delX rest y else (k, w) :: delX rest y

/-- The mutable state of `computeFilledSquares`: the `squares` accumulator
and the `xValues` pending table. -/
structure FillState where
  squares : Squares
  xValues : XVals
  deriving DecidableEq, Repr

/-- Processing of a single crossing `(y, x)` inside the scan loop: if a
crossing for `y` is already pending, emit the span between the two values
and delete the pending entry; otherwise record `floor(x, tileSize)`. -/
def step (T : ℚ) (S : FillState) (ev : ℚ × JSNum) : FillState :=
  match lookupX S.xValues ev.1 with
  | some x0 =>
    ⟨pushSpan T ev.1 (jsMin ev.2 x0) (jsMax ev.2 x0) S.squares, delX S.xValues ev.1⟩
  | none => ⟨S.squares, setX S.xValues ev.1 (jsFloorNum ev.2 T)⟩

/-- The body `accumulateSquaresForEdge` of the source: fold the scan loop
over the crossings of one edge. -/
def accumulateSquaresForEdge (T : ℚ) (S : FillState) (e : EdgeQ) : FillState :=
  (crossingsOf e T).foldl (step T) S

/-- The full fold of `computeFilledSquares` over the edge list, keeping both
state components. -/
def fillFold (edges : List EdgeQ) (T : ℚ) : FillState :=
  edges.foldl (accumulateSquaresForEdge T) ⟨[], []⟩

/-- computeFilledSquares(tileSize): run every edge through
`accumulateSquaresForEdge` and return the `squares` accumulator, discarding
the pending `xValues` table. -/
def computeFilledSquares (edges : List EdgeQ) (T : ℚ) : Squares :=
  (fillFold edges T).squares

/-- The edge list built by `initializePieces`: edge `i` connects vertex `i`
to vertex `(i + 1) % sides`. -/
def mkEdges (pts : List (ℚ × ℚ)) : List EdgeQ :=
  (List.range pts.length).map (fun i =>
    let p := pts.getD i (0, 0)
    let q := pts.getD ((i + 1) % pts.length) (0, 0)
    ⟨p.1, p.2, q.1, q.2⟩)

/-! Lemmas about the association-list operations. -/

theorem lookupX_setX (xs : XVals) (y : ℚ) (v : JSNum) (z : ℚ) :
    lookupX (setX xs y v) z = if z = y then some v else lookupX xs z := by
  induction xs with
  | nil =>
    simp only [setX, lookupX]
    by_cases h : y = z
    · subst h
      simp
    · rw [if_neg h, if_neg (fun hh => h hh.symm)]
  | cons kv rest ih =>
    obtain ⟨k, w⟩ := kv
    simp only [setX]
    by_cases hky : k = y
    · subst hky
      rw [if_pos rfl]
      simp only [lookupX]
      by_cases hkz : k = z
      · subst hkz
        simp
      · rw [if_neg hkz, if_neg (fun hh => hkz hh.symm), if_neg hkz]
    · rw [if_neg hky]
      simp only [lookupX, ih]
      by_cases hkz : k = z
      · subst hkz
        rw [if_pos rfl, if_neg (fun hh => hky hh), if_pos rfl]
      · rw [if_neg hkz]
        by_cases hzy : z = y
        · rw [if_pos hzy, if_pos hzy]
        · rw [if_neg hzy, if_neg hzy, if_neg hkz]

theorem lookupX_delX (xs : XVals) (y : ℚ) (z : ℚ) :
    lookupX (delX xs y) z = if z = y then none else lookupX xs z := by
  induction xs with
  | nil =>
    simp only [delX, lookupX]
    by_cases h : z = y
    · rw [if_pos h]
    · rw [if_neg h]
  | cons kv rest ih =>
    obtain ⟨k, w⟩ := kv
    simp only [delX]
    by_cases hky : k = y
    · subst hky
      rw [if_pos rfl, ih]
      by_cases hzy : z = k
      · rw [if_pos hzy, if_pos hzy]
      · rw [if_neg hzy, if_neg hzy]
        simp only [lookupX]
        rw [if_neg (fun hh => hzy hh.symm)]
    · rw [if_neg hky]
      simp only [lookupX, ih]
      by_cases hkz : k = z
      · subst hkz
        rw [if_pos rfl, if_neg (fun hh => hky hh), if_pos rfl]
      · rw [if_neg hkz]
        by_cases hzy : z = y
        · rw [if_pos hzy, if_pos hzy]
        · rw [if_neg hzy, if_neg hzy, if_neg hkz]

theorem containsTile_pushTile (sq : Squares) (c r : ℚ) (a b : ℚ) :
    containsTile (pushTile sq c r) a b = true ↔
      (a = c ∧ b = r) ∨ containsTile sq a b = true := by
  induction sq with
  | nil =>
    simp only [pushTile, containsTile]
    by_cases h1 : c = a
    · subst h1
      rw [if_pos rfl]
      simp [eq_comm]
    · rw [if_neg h1]
      constructor
      · intro h
        exact Or.inr h
      · rintro (⟨h2, _⟩ | h)
        · exact absurd h2.symm h1
        · exact h
  | cons kv rest ih =>
    obtain ⟨k, rows⟩ := kv
    simp only [pushTile]
    by_cases hkc : k = c
    · subst hkc
      rw [if_pos rfl]
      simp only [containsTile]
      by_cases h1 : k = a
      · subst h1
        rw [if_pos rfl, if_pos rfl]
        simp only [List.mem_append, List.mem_singleton, decide_eq_true_eq,
          eq_self_iff_true, true_and]
        exact or_comm
      · rw [if_neg h1, if_neg h1]
        constructor
        · intro h
          exact Or.inr h
        · rintro (⟨h2, _⟩ | h)
          · exact absurd h2.symm h1
          · exact h
    · rw [if_neg hkc]
      simp only [containsTile]
      by_cases h1 : k = a
      · subst h1
        rw [if_pos rfl, if_pos rfl]
        constructor
        · intro h
          exact Or.inr h
        · rintro (⟨h2, _⟩ | h)
          · exact absurd h2 hkc
          · exact h
      · rw [if_neg h1, if_neg h1, ih]

/-! Lemmas about the JavaScript min and max. -/

theorem jsMin_comm (x y : JSNum) : jsMin x y = jsMin y x := by
  cases x <;> cases y <;> simp [jsMin, min_comm]

theorem jsMax_comm (x y : JSNum) : jsMax x y = jsMax y x := by
  cases x <;> cases y <;> simp [jsMax, max_comm]

/-! Arithmetic of the `floor(n, modulo)` helper at an integer modulus.  With
a positive integer modulus the helper really does round down to a multiple
of the modulus; the fractional-modulus counterexamples below show this is
where several spec sentences silently assume an integer tile size. -/

theorem ratTrunc_intCast (m : ℤ) : ratTrunc (m : ℚ) = m := by
  simp [ratTrunc]

theorem floor_int_eq (q : ℚ) (n : ℕ) (hn : 1 ≤ n) :
    floor q (n : ℚ) = (n : ℚ) * (ratTrunc (q / (n : ℚ)) : ℚ) := by
  have : q - jsModQ q (n : ℚ) = (n : ℚ) * (ratTrunc (q / (n : ℚ)) : ℚ) := by
    simp only [jsModQ]
    ring
  rw [floor, this]
  have : ((n : ℚ) * (ratTrunc (q / (n : ℚ)) : ℚ)) = (((n : ℤ) * ratTrunc (q / (n : ℚ)) : ℤ) : ℚ) := by
    push_cast; ring
  rw [this, Int.floor_intCast]

theorem floor_int_multiple (q : ℚ) (n : ℕ) (hn : 1 ≤ n) :
    ∃ m : ℤ, floor q (n : ℚ) = (m : ℚ) * (n : ℚ) :=
  ⟨ratTrunc (q / (n : ℚ)), by rw [floor_int_eq q n hn]; ring⟩

theorem self_lt_floor_int_add (q : ℚ) (n : ℕ) (hn : 1 ≤ n) :
    q < floor q (n : ℚ) + (n : ℚ) := by
  have hT : (0 : ℚ) < (n : ℚ) := by exact_mod_cast hn
  rw [floor_int_eq q n hn]
  by_cases hq : q / (n : ℚ) < 0
  · have h1 : (ratTrunc (q / (n : ℚ)) : ℚ) = (⌈q / (n : ℚ)⌉ : ℚ) := by simp [ratTrunc, hq]
    rw [h1]
    have h2 : q / (n : ℚ) ≤ (⌈q / (n : ℚ)⌉ : ℚ) := Int.le_ceil _
    have h3 : q ≤ (n : ℚ) * (⌈q / (n : ℚ)⌉ : ℚ) := by
      rw [div_le_iff hT] at h2; linarith [h2]
    linarith
  · have h1 : (ratTrunc (q / (n : ℚ)) : ℚ) = (⌊q / (n : ℚ)⌋ : ℚ) := by simp [ratTrunc, hq]
    rw [h1]
    have h2 : q / (n : ℚ) < (⌊q / (n : ℚ)⌋ : ℚ) + 1 := Int.lt_floor_add_one _
    have h3 : q < (n : ℚ) * ((⌊q / (n : ℚ)⌋ : ℚ) + 1) := by
      rw [div_lt_iff hT] at h2; linarith [h2]
    linarith

theorem floor_int_le_self (q : ℚ) (n : ℕ) (hn : 1 ≤ n) (hq : 0 ≤ q) :
    floor q (n : ℚ) ≤ q := by
  have hT : (0 : ℚ) < (n : ℚ) := by exact_mod_cast hn
  have hq2 : ¬ q / (n : ℚ) < 0 := not_lt.mpr (div_nonneg hq hT.le)
  rw [floor_int_eq q n hn]
  have h1 : (ratTrunc (q / (n : ℚ)) : ℚ) = (⌊q / (n : ℚ)⌋ : ℚ) := by simp [ratTrunc, hq2]
  rw [h1]
  have h2 : (⌊q / (n : ℚ)⌋ : ℚ) ≤ q / (n : ℚ) := Int.floor_le _
  rw [le_div_iff hT] at h2
  linarith

theorem floor_int_nonneg_eq (q : ℚ) (n : ℕ) (hn : 1 ≤ n) (hq : 0 ≤ q) :
    floor q (n : ℚ) = (n : ℚ) * (⌊q / (n : ℚ)⌋ : ℚ) := by
  have hT : (0 : ℚ) < (n : ℚ) := by exact_mod_cast hn
  have hq2 : ¬ q / (n : ℚ) < 0 := not_lt.mpr (div_nonneg hq hT.le)
  rw [floor_int_eq q n hn]
  simp [ratTrunc, hq2]

theorem floor_int_of_multiple (m : ℤ) (n : ℕ) (hn : 1 ≤ n) :
    floor ((m : ℚ) * (n : ℚ)) (n : ℚ) = (m : ℚ) * (n : ℚ) := by
  have hT : ((n : ℚ)) ≠ 0 := by
    have : (0 : ℚ) < (n : ℚ) := by exact_mod_cast hn
    exact ne_of_gt this
  rw [floor_int_eq _ n hn, mul_div_cancel_right₀ _ hT, ratTrunc_intCast]
  ring

theorem floor_int_idem (q : ℚ) (n : ℕ) (hn : 1 ≤ n) :
    floor (floor q (n : ℚ)) (n : ℚ) = floor q (n : ℚ) := by
  obtain ⟨m, hm⟩ := floor_int_multiple q n hn
  rw [hm, floor_int_of_multiple m n hn]

theorem jsFloorNum_idem (x : JSNum) (n : ℕ) (hn : 1 ≤ n) :
    jsFloorNum (jsFloorNum x (n : ℚ)) (n : ℚ) = jsFloorNum x (n : ℚ) := by
  have hT : ¬ ((n : ℚ) = 0) := by
    have : (0 : ℚ) < (n : ℚ) := by exact_mod_cast hn
    exact ne_of_gt this
  cases x <;> simp [jsFloorNum, hT, floor_int_idem _ n hn]

/-! Characterisation of the scan-lines the loop
`for (let y = floor(ya, tileSize) + tileSize; y <= yb; y += tileSize)`
visits, for a positive integer tile size. -/

theorem scanStart_int (e : EdgeQ) (n : ℕ) (hn : 1 ≤ n) :
    scanStart e (n : ℚ) = ((ratTrunc (yaE e / (n : ℚ)) + 1 : ℤ) : ℚ) * (n : ℚ) := by
  rw [scanStart, floor_int_eq _ n hn]
  push_cast
  ring

theorem mem_scanlines_iff (e : EdgeQ) (n : ℕ) (hn : 1 ≤ n) (y : ℚ) :
    y ∈ scanlines e (n : ℚ) ↔
      ∃ m : ℤ, y = (m : ℚ) * (n : ℚ) ∧
        ratTrunc (yaE (eShift e (n : ℚ)) / (n : ℚ)) + 1 ≤ m ∧
        (m : ℚ) * (n : ℚ) ≤ ybE (eShift e (n : ℚ)) := by
  have hT : (0 : ℚ) < (n : ℚ) := by exact_mod_cast hn
  have hs : scanStart (eShift e (n : ℚ)) (n : ℚ) =
      ((ratTrunc (yaE (eShift e (n : ℚ)) / (n : ℚ)) + 1 : ℤ) : ℚ) * (n : ℚ) :=
    scanStart_int _ n hn
  simp only [scanlines, List.mem_map, List.mem_range]
  constructor
  · rintro ⟨k, hk, rfl⟩
    refine ⟨ratTrunc (yaE (eShift e (n : ℚ)) / (n : ℚ)) + 1 + k, ?_, by omega, ?_⟩
    · rw [hs]; push_cast; ring
    · simp only [scanCount, if_neg (not_le.mpr hT)] at hk
      by_cases hyb : ybE (eShift e (n : ℚ)) < scanStart (eShift e (n : ℚ)) (n : ℚ)
      · rw [if_pos hyb] at hk
        omega
      · rw [if_neg hyb] at hk
        have h1 : (k : ℤ) <
            ⌊(ybE (eShift e (n : ℚ)) - scanStart (eShift e (n : ℚ)) (n : ℚ)) / (n : ℚ)⌋ + 1 :=
          Int.lt_toNat.mp hk
        have h2 : (k : ℤ) ≤
            ⌊(ybE (eShift e (n : ℚ)) - scanStart (eShift e (n : ℚ)) (n : ℚ)) / (n : ℚ)⌋ := by
          omega
        have h3 : ((k : ℤ) : ℚ) ≤
            (ybE (eShift e (n : ℚ)) - scanStart (eShift e (n : ℚ)) (n : ℚ)) / (n : ℚ) :=
          Int.le_floor.mp h2
        rw [le_div_iff₀ hT] at h3
        rw [hs] at h3
        push_cast at h3 ⊢
        linarith
  · rintro ⟨m, rfl, hm1, hm2⟩
    have hsle : scanStart (eShift e (n : ℚ)) (n : ℚ) ≤ (m : ℚ) * (n : ℚ) := by
      rw [hs]
      have hc : ((ratTrunc (yaE (eShift e (n : ℚ)) / (n : ℚ)) + 1 : ℤ) : ℚ) ≤ (m : ℚ) := by
        exact_mod_cast hm1
      exact mul_le_mul_of_nonneg_right hc hT.le
    have hyb : ¬ ybE (eShift e (n : ℚ)) < scanStart (eShift e (n : ℚ)) (n : ℚ) :=
      not_lt.mpr (le_trans hsle hm2)
    refine ⟨(m - (ratTrunc (yaE (eShift e (n : ℚ)) / (n : ℚ)) + 1)).toNat, ?_, ?_⟩
    · simp only [scanCount, if_neg (not_le.mpr hT), if_neg hyb]
      have h4 : ((m - (ratTrunc (yaE (eShift e (n : ℚ)) / (n : ℚ)) + 1) : ℤ) : ℚ) ≤
          (ybE (eShift e (n : ℚ)) - scanStart (eShift e (n : ℚ)) (n : ℚ)) / (n : ℚ) := by
        rw [le_div_iff₀ hT, hs]
        push_cast
        nlinarith [hm2]
      have h5 : m - (ratTrunc (yaE (eShift e (n : ℚ)) / (n : ℚ)) + 1) ≤
          ⌊(ybE (eShift e (n : ℚ)) - scanStart (eShift e (n : ℚ)) (n : ℚ)) / (n : ℚ)⌋ :=
        Int.le_floor.mpr h4
      omega
    · have h6 : (((m - (ratTrunc (yaE (eShift e (n : ℚ)) / (n : ℚ)) + 1)).toNat : ℤ) : ℚ) =
          ((m : ℚ) - ((ratTrunc (yaE (eShift e (n : ℚ)) / (n : ℚ)) : ℚ) + 1)) := by
        have h7 : ((m - (ratTrunc (yaE (eShift e (n : ℚ)) / (n : ℚ)) + 1)).toNat : ℤ) =
            m - (ratTrunc (yaE (eShift e (n : ℚ)) / (n : ℚ)) + 1) :=
          Int.toNat_of_nonneg (by omega)
        rw [h7]
        push_cast
        ring
      rw [hs]
      push_cast at h6 ⊢
      rw [h6]
      ring

theorem mem_scanlines_iff_nonneg (e : EdgeQ) (n : ℕ) (hn : 1 ≤ n)
    (hya : 0 ≤ yaE (eShift e (n : ℚ))) (y : ℚ) :
    y ∈ scanlines e (n : ℚ) ↔
      (∃ m : ℤ, y = (m : ℚ) * (n : ℚ)) ∧
        yaE (eShift e (n : ℚ)) < y ∧ y ≤ ybE (eShift e (n : ℚ)) := by
  have hT : (0 : ℚ) < (n : ℚ) := by exact_mod_cast hn
  rw [mem_scanlines_iff e n hn y]
  constructor
  · rintro ⟨m, rfl, hm1, hm2⟩
    refine ⟨⟨m, rfl⟩, ?_, hm2⟩
    have h1 : yaE (eShift e (n : ℚ)) < scanStart (eShift e (n : ℚ)) (n : ℚ) := by
      rw [scanStart]
      exact self_lt_floor_int_add _ n hn
    have h2 : scanStart (eShift e (n : ℚ)) (n : ℚ) ≤ (m : ℚ) * (n : ℚ) := by
      rw [scanStart_int _ n hn]
      have hc : ((ratTrunc (yaE (eShift e (n : ℚ)) / (n : ℚ)) + 1 : ℤ) : ℚ) ≤ (m : ℚ) := by
        exact_mod_cast hm1
      exact mul_le_mul_of_nonneg_right hc hT.le
    linarith
  · rintro ⟨⟨m, rfl⟩, hlt, hle⟩
    refine ⟨m, rfl, ?_, hle⟩
    by_contra hcon
    push_neg at hcon
    have h1 : m ≤ ratTrunc (yaE (eShift e (n : ℚ)) / (n : ℚ)) := by omega
    have h2 : (m : ℚ) * (n : ℚ) ≤
        (ratTrunc (yaE (eShift e (n : ℚ)) / (n : ℚ)) : ℚ) * (n : ℚ) := by
      have hc : (m : ℚ) ≤ (ratTrunc (yaE (eShift e (n : ℚ)) / (n : ℚ)) : ℚ) := by
        exact_mod_cast h1
      exact mul_le_mul_of_nonneg_right hc hT.le
    have h3 : (ratTrunc (yaE (eShift e (n : ℚ)) / (n : ℚ)) : ℚ) * (n : ℚ) ≤
        yaE (eShift e (n : ℚ)) := by
      have h4 := floor_int_le_self (yaE (eShift e (n : ℚ))) n hn hya
      rw [floor_int_eq _ n hn] at h4
      linarith [h4]
    linarith

theorem scanlines_eq_nil_of_flat (e : EdgeQ) (n : ℕ) (hn : 1 ≤ n)
    (h : e.y1 = e.y2) : scanlines e (n : ℚ) = [] := by
  have hT : (0 : ℚ) < (n : ℚ) := by exact_mod_cast hn
  have hy : yaE (eShift e (n : ℚ)) = ybE (eShift e (n : ℚ)) := by
    simp [yaE, ybE, eShift, h]
  have h1 : ybE (eShift e (n : ℚ)) < scanStart (eShift e (n : ℚ)) (n : ℚ) := by
    rw [← hy, scanStart]
    exact self_lt_floor_int_add _ n hn
  simp [scanlines, scanCount, if_neg (not_le.mpr hT), if_pos h1]

theorem crossingsOf_eq_nil_of_flat (e : EdgeQ) (n : ℕ) (hn : 1 ≤ n)
    (h : e.y1 = e.y2) : crossingsOf e (n : ℚ) = [] := by
  simp [crossingsOf, scanlines_eq_nil_of_flat e n hn h]

theorem scanlines_nodup (e : EdgeQ) (T : ℚ) (hT : 0 < T) : (scanlines e T).Nodup := by
  rw [scanlines]
  have hinj : Function.Injective (fun (k : ℕ) => scanStart (eShift e T) T + (k : ℚ) * T) := by
    intro a b hab
    simp only at hab
    have h1 : (a : ℚ) * T = (b : ℚ) * T := by linarith
    have h2 : (a : ℚ) = (b : ℚ) := mul_right_cancel₀ (ne_of_gt hT) h1
    exact_mod_cast h2
  exact (List.nodup_range _).map hinj

/-! The fold over edges seen as a fold over the flattened list of crossing
events, and its restriction to a single scan-line. -/

/-- The crossings of all edges, in processing order. -/
def allCrossings (es : List EdgeQ) (T : ℚ) : List (ℚ × JSNum) :=
  match es with
  | [] => []
  | e :: rest => crossingsOf e T ++ allCrossings rest T

/-- Number of edges whose scan loop visits the scan-line `y`. -/
def crossCount (es : List EdgeQ) (T : ℚ) (y : ℚ) : ℕ :=
  es.countP (fun e => decide (y ∈ scanlines e T))

theorem foldl_accumulate_eq_allCrossings (es : List EdgeQ) (T : ℚ) :
    ∀ S : FillState,
      es.foldl (accumulateSquaresForEdge T) S = (allCrossings es T).foldl (step T) S := by
  induction es with
  | nil => intro S; rfl
  | cons e rest ih =>
    intro S
    simp only [List.foldl_cons, allCrossings, List.foldl_append]
    rw [ih]
    rfl

theorem allCrossings_perm {es es' : List EdgeQ} (T : ℚ) (p : es.Perm es') :
    (allCrossings es T).Perm (allCrossings es' T) := by
  induction p with
  | nil => exact List.Perm.refl _
  | cons e p ih =>
    simp only [allCrossings]
    exact ih.append_left (crossingsOf e T)
  | swap a b l =>
    simp only [allCrossings]
    rw [← List.append_assoc, ← List.append_assoc]
    exact List.Perm.append_right _ List.perm_append_comm
  | trans p1 p2 ih1 ih2 => exact ih1.trans ih2

theorem filter_fst_map_eq {α : Type} (g : ℚ → α) (y : ℚ) :
    ∀ (l : List ℚ), l.Nodup →
      ((l.map (fun z => (z, g z))).filter (fun ev => decide (ev.1 = y))) =
        if y ∈ l then [(y, g y)] else [] := by
  intro l
  induction l with
  | nil => intro _; simp
  | cons a l ih =>
    intro hnd
    obtain ⟨ha, hl⟩ := List.nodup_cons.mp hnd
    by_cases hay : a = y
    · subst hay
      have hstep : ((a, g a) :: l.map (fun z => (z, g z))).filter
            (fun ev => decide (ev.1 = a)) =
          (a, g a) :: (l.map (fun z => (z, g z))).filter (fun ev => decide (ev.1 = a)) := by
        simp [List.filter_cons]
      rw [List.map_cons, hstep, ih hl, if_neg ha, if_pos (List.mem_cons_self a l)]
    · have hstep : ((a, g a) :: l.map (fun z => (z, g z))).filter
            (fun ev => decide (ev.1 = y)) =
          (l.map (fun z => (z, g z))).filter (fun ev => decide (ev.1 = y)) := by
        simp [List.filter_cons, hay]
      rw [List.map_cons, hstep, ih hl]
      by_cases hyl : y ∈ l
      · rw [if_pos hyl, if_pos (List.mem_cons_of_mem a hyl)]
      · have hnmem : y ∉ a :: l := by
          intro hmem
          rcases List.mem_cons.mp hmem with h | h
          · exact hay h.symm
          · exact hyl h
        rw [if_neg hyl, if_neg hnmem]

theorem filter_crossingsOf (e : EdgeQ) (T : ℚ) (hT : 0 < T) (y : ℚ) :
    (crossingsOf e T).filter (fun ev => decide (ev.1 = y)) =
      if y ∈ scanlines e T then [(y, jsFloorNum (xAtScan (eShift e T) y) T)] else [] := by
  rw [crossingsOf]
  exact filter_fst_map_eq _ y (scanlines e T) (scanlines_nodup e T hT)

theorem length_filter_allCrossings (es : List EdgeQ) (T : ℚ) (hT : 0 < T) (y : ℚ) :
    ((allCrossings es T).filter (fun ev => decide (ev.1 = y))).length = crossCount es T y := by
  induction es with
  | nil => simp [allCrossings, crossCount]
  | cons e rest ih =>
    simp only [allCrossings, List.filter_append, List.length_append, ih,
      filter_crossingsOf e T hT y, crossCount, List.countP_cons]
    by_cases hmem : y ∈ scanlines e T
    · simp [hmem]
      omega
    · simp [hmem]

/-! Characterisation of the tiles pushed by the emission loop. -/

theorem boolEqOfIff {a b : Bool} (h : a = true ↔ b = true) : a = b := by
  cases a <;> cases b <;> simp_all

theorem containsTile_foldl_pushTile (g : ℕ → ℚ) (row : ℚ) :
    ∀ (ks : List ℕ) (sq : Squares) (c r : ℚ),
      containsTile (ks.foldl (fun s k => pushTile s (g k) row) sq) c r = true ↔
        containsTile sq c r = true ∨ (r = row ∧ ∃ k ∈ ks, c = g k) := by
  intro ks
  induction ks with
  | nil => intro sq c r; simp
  | cons k ks ih =>
    intro sq c r
    simp only [List.foldl_cons]
    rw [ih, containsTile_pushTile]
    simp only [List.mem_cons]
    constructor
    · rintro ((⟨hc, hr⟩ | h) | ⟨hr, k', hk', hc⟩)
      · exact Or.inr ⟨hr, k, Or.inl rfl, hc⟩
      · exact Or.inl h
      · exact Or.inr ⟨hr, k', Or.inr hk', hc⟩
    · rintro (h | ⟨hr, k', (hk' | hk'), hc⟩)
      · exact Or.inl (Or.inr h)
      · subst hk'
        exact Or.inl (Or.inl ⟨hc, hr⟩)
      · exact Or.inr ⟨hr, k', hk', hc⟩

theorem containsTile_pushSpan (T y : ℚ) (xa xb : JSNum) (sq : Squares) (c r : ℚ) :
    containsTile (pushSpan T y xa xb sq) c r = true ↔
      containsTile sq c r = true ∨
        (∃ a b, xa = JSNum.fin a ∧ xb = JSNum.fin b ∧ r = y / T ∧
          ∃ k : ℕ, k < spanCount a b T ∧ c = (a + (k : ℚ) * T) / T) := by
  cases xa with
  | fin a =>
    cases xb with
    | fin b =>
      simp only [pushSpan]
      rw [containsTile_foldl_pushTile]
      simp only [List.mem_range, JSNum.fin.injEq]
      constructor
      · rintro (h | ⟨hr, k, hk, hc⟩)
        · exact Or.inl h
        · exact Or.inr ⟨a, b, rfl, rfl, hr, k, hk, hc⟩
      · rintro (h | ⟨a', b', ha', hb', hr, k, hk, hc⟩)
        · exact Or.inl h
        · subst ha'; subst hb'
          exact Or.inr ⟨hr, k, hk, hc⟩
    | nan => simp [pushSpan]
    | posInf => simp [pushSpan]
    | negInf => simp [pushSpan]
  | nan => simp [pushSpan]
  | posInf => simp [pushSpan]
  | negInf => simp [pushSpan]

theorem containsTile_pushSpan_ne_row (T y : ℚ) (xa xb : JSNum) (sq : Squares)
    (c r : ℚ) (h : r ≠ y / T) :
    containsTile (pushSpan T y xa xb sq) c r = containsTile sq c r := by
  apply boolEqOfIff
  rw [containsTile_pushSpan]
  constructor
  · rintro (hh | ⟨_, _, _, _, hr, _⟩)
    · exact hh
    · exact absurd hr h
  · intro hh
    exact Or.inl hh

theorem containsTile_pushSpan_congr (T y : ℚ) (xa xb : JSNum) (sq₁ sq₂ : Squares)
    (hc : ∀ c, containsTile sq₁ c (y / T) = containsTile sq₂ c (y / T)) (c : ℚ) :
    containsTile (pushSpan T y xa xb sq₁) c (y / T) =
      containsTile (pushSpan T y xa xb sq₂) c (y / T) := by
  apply boolEqOfIff
  rw [containsTile_pushSpan, containsTile_pushSpan, hc c]

/-- Arithmetic reading of the emission loop: if the lower bound is an integer
multiple of the (positive) tile size, the columns it pushes are exactly the
integers `m` with `xa <= m * T < xb`. -/
theorem spanCount_mem_iff (a b T : ℚ) (hT : 0 < T) (j : ℤ) (hja : a = (j : ℚ) * T) (c : ℚ) :
    (∃ k : ℕ, k < spanCount a b T ∧ c = (a + (k : ℚ) * T) / T) ↔
      (∃ m : ℤ, c = (m : ℚ) ∧ a ≤ (m : ℚ) * T ∧ (m : ℚ) * T < b) := by
  constructor
  · rintro ⟨k, hk, rfl⟩
    have hkc : (k : ℚ) * T < b - a := by
      simp only [spanCount, if_neg (not_le.mpr hT)] at hk
      by_cases hba : b ≤ a
      · rw [if_pos hba] at hk; omega
      · rw [if_neg hba] at hk
        have h1 : (k : ℤ) < ⌈(b - a) / T⌉ := Int.lt_toNat.mp hk
        have h2 : ((k : ℤ) : ℚ) < (b - a) / T := Int.lt_ceil.mp h1
        rw [lt_div_iff₀ hT] at h2
        exact_mod_cast h2
    refine ⟨j + k, ?_, ?_, ?_⟩
    · rw [hja]
      push_cast
      rw [div_eq_iff (ne_of_gt hT)]
      ring
    · rw [hja]
      push_cast
      nlinarith [mul_nonneg (show (0 : ℚ) ≤ (k : ℚ) from Nat.cast_nonneg k) hT.le]
    · push_cast
      linarith [hkc]
  · rintro ⟨m, rfl, h1, h2⟩
    have hjm : j ≤ m := by
      rw [hja] at h1
      have := le_of_mul_le_mul_right h1 hT
      exact_mod_cast this
    refine ⟨(m - j).toNat, ?_, ?_⟩
    · simp only [spanCount, if_neg (not_le.mpr hT)]
      have hba : ¬ b ≤ a := not_le.mpr (lt_of_le_of_lt h1 h2)
      rw [if_neg hba]
      have h3 : ((m - j : ℤ) : ℚ) < (b - a) / T := by
        rw [lt_div_iff₀ hT, hja]
        push_cast
        linarith
      have h4 : (m - j : ℤ) < ⌈(b - a) / T⌉ := Int.lt_ceil.mpr h3
      omega
    · have h5 : (((m - j).toNat : ℕ) : ℚ) = ((m : ℚ) - (j : ℚ)) := by
        have h6 : ((m - j).toNat : ℤ) = m - j := Int.toNat_of_nonneg (by omega)
        exact_mod_cast congrArg (fun z : ℤ => (z : ℚ)) h6
      rw [hja, h5, eq_div_iff (ne_of_gt hT)]
      ring

/-! Frame and toggle lemmas for a single crossing step. -/

theorem lookupX_step_ne (T : ℚ) (S : FillState) (ev : ℚ × JSNum) (y : ℚ)
    (h : ¬ ev.1 = y) :
    lookupX (step T S ev).xValues y = lookupX S.xValues y := by
  rcases hl : lookupX S.xValues ev.1 with _ | x0
  · simp only [step, hl]
    rw [lookupX_setX, if_neg (fun hh => h hh.symm)]
  · simp only [step, hl]
    rw [lookupX_delX, if_neg (fun hh => h hh.symm)]

theorem lookupX_step_self_toggle (T : ℚ) (S : FillState) (ev : ℚ × JSNum) :
    lookupX (step T S ev).xValues ev.1 = none ↔
      ¬ (lookupX S.xValues ev.1 = none) := by
  rcases hl : lookupX S.xValues ev.1 with _ | x0
  · simp only [step, hl]
    rw [lookupX_setX, if_pos rfl]
    simp
  · simp only [step, hl]
    rw [lookupX_delX, if_pos rfl]
    simp [hl]

theorem containsTile_step_ne_row (T : ℚ) (S : FillState) (ev : ℚ × JSNum)
    (c r : ℚ) (h : r ≠ ev.1 / T) :
    containsTile (step T S ev).squares c r = containsTile S.squares c r := by
  rcases hl : lookupX S.xValues ev.1 with _ | x0
  · simp only [step, hl]
  · simp only [step, hl]
    exact containsTile_pushSpan_ne_row _ _ _ _ _ _ _ h

/-- Per-scan-line simulation: folding all crossing events is equivalent, at
scan-line `y` (pending entry) and at row `y / T` (emitted tiles), to folding
only the events of scan-line `y`. -/
theorem fold_filter_sim (T : ℚ) (hT : T ≠ 0) (y : ℚ) :
    ∀ (evs : List (ℚ × JSNum)) (S₁ S₂ : FillState),
      lookupX S₁.xValues y = lookupX S₂.xValues y →
      (∀ c, containsTile S₁.squares c (y / T) = containsTile S₂.squares c (y / T)) →
      lookupX (evs.foldl (step T) S₁).xValues y =
          lookupX ((evs.filter (fun ev => decide (ev.1 = y))).foldl (step T) S₂).xValues y ∧
        ∀ c, containsTile (evs.foldl (step T) S₁).squares c (y / T) =
          containsTile ((evs.filter (fun ev => decide (ev.1 = y))).foldl (step T) S₂).squares c (y / T) := by
  intro evs
  induction evs with
  | nil => intro S₁ S₂ h1 h2; exact ⟨h1, h2⟩
  | cons ev evs ih =>
    intro S₁ S₂ h1 h2
    by_cases hy : ev.1 = y
    · subst hy
      have hfil : (ev :: evs).filter (fun e2 => decide (e2.1 = ev.1)) =
          ev :: evs.filter (fun e2 => decide (e2.1 = ev.1)) := by
        simp [List.filter_cons]
      rw [hfil]
      simp only [List.foldl_cons]
      apply ih
      · rcases hl : lookupX S₂.xValues ev.1 with _ | x0
        · have hl1 : lookupX S₁.xValues ev.1 = none := by rw [h1, hl]
          simp only [step, hl, hl1]
          rw [lookupX_setX, lookupX_setX, if_pos rfl, if_pos rfl]
        · have hl1 : lookupX S₁.xValues ev.1 = some x0 := by rw [h1, hl]
          simp only [step, hl, hl1]
          rw [lookupX_delX, lookupX_delX, if_pos rfl, if_pos rfl]
      · intro c
        rcases hl : lookupX S₂.xValues ev.1 with _ | x0
        · have hl1 : lookupX S₁.xValues ev.1 = none := by rw [h1, hl]
          simp only [step, hl, hl1]
          exact h2 c
        · have hl1 : lookupX S₁.xValues ev.1 = some x0 := by rw [h1, hl]
          simp only [step, hl, hl1]
          exact containsTile_pushSpan_congr T ev.1 (jsMin ev.2 x0) (jsMax ev.2 x0)
            S₁.squares S₂.squares h2 c
    · have hfil : (ev :: evs).filter (fun e2 => decide (e2.1 = y)) =
          evs.filter (fun e2 => decide (e2.1 = y)) := by
        simp [List.filter_cons, hy]
      rw [hfil]
      simp only [List.foldl_cons]
      apply ih
      · rw [lookupX_step_ne T S₁ ev y hy]
        exact h1
      · intro c
        have hne : y / T ≠ ev.1 / T := by
          intro hdiv
          have h3 : y = ev.1 := by
            have h4 := congrArg (fun z => z * T) hdiv
            simpa [div_mul_cancel₀ _ hT] using h4
          exact hy h3.symm
        rw [containsTile_step_ne_row T S₁ ev c (y / T) hne]
        exact h2 c

/-- Bridge from the full fill to the single-scan-line fold. -/
theorem containsTile_result_filtered (es : List EdgeQ) (T : ℚ) (hT : T ≠ 0) (y c : ℚ) :
    containsTile (computeFilledSquares es T) c (y / T) =
      containsTile (((allCrossings es T).filter (fun ev => decide (ev.1 = y))).foldl
        (step T) ⟨[], []⟩).squares c (y / T) := by
  rw [computeFilledSquares, fillFold, foldl_accumulate_eq_allCrossings]
  exact (fold_filter_sim T hT y (allCrossings es T) ⟨[], []⟩ ⟨[], []⟩ rfl (fun _ => rfl)).2 c

/-- Parity of the pending table: each crossing of `y` toggles the presence of
`xValues[y]`. -/
theorem lookupX_foldl_parity (T : ℚ) (y : ℚ) :
    ∀ (evs : List (ℚ × JSNum)) (S : FillState),
      (lookupX (evs.foldl (step T) S).xValues y = none ↔
        ((lookupX S.xValues y = none) ↔ Even (evs.countP (fun ev => decide (ev.1 = y))))) := by
  intro evs
  induction evs with
  | nil =>
    intro S
    simp
  | cons ev evs ih =>
    intro S
    simp only [List.foldl_cons]
    rw [ih (step T S ev)]
    by_cases hy : ev.1 = y
    · have hcount : (ev :: evs).countP (fun e2 => decide (e2.1 = y)) =
          evs.countP (fun e2 => decide (e2.1 = y)) + 1 := by
        simp [List.countP_cons, hy]
      rw [hcount, Nat.even_add_one]
      have htog : lookupX (step T S ev).xValues y = none ↔
          ¬ (lookupX S.xValues y = none) := by
        rw [← hy]
        exact lookupX_step_self_toggle T S ev
      rw [htog]
      tauto
    · have hcount : (ev :: evs).countP (fun e2 => decide (e2.1 = y)) =
          evs.countP (fun e2 => decide (e2.1 = y)) := by
        simp [List.countP_cons, hy]
      rw [hcount, lookupX_step_ne T S ev y hy]

/-- Every crossing value in the event stream is an output of the floor
helper. -/
theorem mem_allCrossings_snd (es : List EdgeQ) (T : ℚ) (ev : ℚ × JSNum) :
    ev ∈ allCrossings es T → ∃ z : JSNum, ev.2 = jsFloorNum z T := by
  induction es with
  | nil => intro h; cases h
  | cons e rest ih =>
    intro h
    rcases List.mem_append.mp h with h | h
    · rw [crossingsOf] at h
      obtain ⟨z, _, hz⟩ := List.mem_map.mp h
      exact ⟨xAtScan (eShift e T) z, by rw [← hz]⟩
    · exact ih h

/-- Processing the two crossings of one scan-line from a clean state is
insensitive to their order: the recorded value is re-floored (a fixed point
for an integer tile size) and the span bounds are the symmetric min and
max. -/
theorem foldl_pair_swap (n : ℕ) (hn : 1 ≤ n) (y : ℚ) (x₁ x₂ : JSNum)
    (h₁ : ∃ z, x₁ = jsFloorNum z (n : ℚ)) (h₂ : ∃ z, x₂ = jsFloorNum z (n : ℚ)) :
    [(y, x₁), (y, x₂)].foldl (step (n : ℚ)) ⟨[], []⟩ =
      [(y, x₂), (y, x₁)].foldl (step (n : ℚ)) ⟨[], []⟩ := by
  obtain ⟨z₁, rfl⟩ := h₁
  obtain ⟨z₂, rfl⟩ := h₂
  have hid₁ := jsFloorNum_idem z₁ n hn
  have hid₂ := jsFloorNum_idem z₂ n hn
  have hrec : ∀ x : JSNum, step (n : ℚ) ⟨[], []⟩ (y, x) =
      ⟨[], [(y, jsFloorNum x (n : ℚ))]⟩ := by
    intro x
    simp [step, lookupX, setX]
  have hpair : ∀ x w : JSNum, step (n : ℚ) ⟨[], [(y, w)]⟩ (y, x) =
      ⟨pushSpan (n : ℚ) y (jsMin x w) (jsMax x w) [], []⟩ := by
    intro x w
    simp [step, lookupX, delX]
  simp only [List.foldl_cons, List.foldl_nil]
  rw [hrec, hrec, hpair, hpair, hid₁, hid₂]
  rw [jsMin_comm, jsMax_comm]

/-- A list permuting with an explicit pair is that pair in one of its two
orders. -/
theorem perm_pair_cases {α : Type} {l : List α} {a b : α}
    (p : l.Perm [a, b]) : l = [a, b] ∨ l = [b, a] := by
  have hlen : l.length = 2 := by rw [p.length_eq]; rfl
  obtain ⟨u, v, rfl⟩ := List.length_eq_two.mp hlen
  have hu : u = a ∨ u = b := by
    have huu := p.mem_iff.mp (show u ∈ [u, v] by simp)
    simpa using huu
  rcases hu with rfl | rfl
  · have p2 : [v].Perm [b] := p.cons_inv
    have hv : v = b := by
      have hvv := p2.mem_iff.mp (show v ∈ [v] by simp)
      simpa using hvv
    subst hv
    exact Or.inl rfl
  · have p3 : ([u, v].Perm [u, a]) := p.trans (List.Perm.swap u a [])
    have p2 : [v].Perm [a] := p3.cons_inv
    have hv : v = a := by
      have hvv := p2.mem_iff.mp (show v ∈ [v] by simp)
      simpa using hvv
    subst hv
    exact Or.inr rfl

/-- A scan-line with at least one crossing edge appears among the visited
scan-lines of some edge. -/
theorem crossCount_pos_mem (es : List EdgeQ) (T : ℚ) (y : ℚ)
    (h : crossCount es T y ≠ 0) : ∃ e ∈ es, y ∈ scanlines e T := by
  rw [crossCount] at h
  obtain ⟨e, he, hp⟩ := List.countP_pos.mp (Nat.pos_of_ne_zero h)
  exact ⟨e, he, of_decide_eq_true hp⟩

/-! Claim theorems. -/

/-- C1: for the axis-aligned square with vertices (100,100), (200,100),
(200,200), (100,200) and tileSize 20 the spec expects the 25 tiles with
column and row in [5,10); the code instead returns an empty result, because
the two vertical edges get slope 0, their x-intersections (y-b)/0 evaluate
to infinities, the floor helper turns those into NaN, and a NaN span emits
no tiles.  This theorem evaluates the fill at that input and confirms the
empty result, witnessing the vertical-edge slope bug the spec itself flags
as an open question. -/
theorem c1_square_empty :
    computeFilledSquares
      (mkEdges [(100, 100), (200, 100), (200, 200), (100, 200)]) 20 = [] := by
  with_unfolding_all decide

theorem accumulate_id_of_no_crossings (T : ℚ) (S : FillState) (e : EdgeQ)
    (h : crossingsOf e T = []) : accumulateSquaresForEdge T S e = S := by
  rw [accumulateSquaresForEdge, h]
  rfl

/-- C4 (amended): for every positive integer tileSize, a fully horizontal
(hence also a zero-length) edge has a scan loop of zero iterations, and
inserting such an edge anywhere in the edge list leaves the computed fill
unchanged; vertical edges get slope 0 as the source comments describe. -/
theorem c4_degenerate_skipped (n : ℕ) (hn : 1 ≤ n) (e : EdgeQ) (hflat : e.y1 = e.y2) :
    scanlines e (n : ℚ) = [] ∧
      (∀ es₁ es₂ : List EdgeQ,
        computeFilledSquares (es₁ ++ e :: es₂) (n : ℚ) =
          computeFilledSquares (es₁ ++ es₂) (n : ℚ)) ∧
      (∀ ev : EdgeQ, ev.x2 = ev.x1 → slopeE (eShift ev (n : ℚ)) = 0) := by
  refine ⟨scanlines_eq_nil_of_flat e n hn hflat, ?_, ?_⟩
  · intro es₁ es₂
    rw [computeFilledSquares, computeFilledSquares, fillFold, fillFold,
      List.foldl_append, List.foldl_append, List.foldl_cons,
      accumulate_id_of_no_crossings (n : ℚ) _ e (crossingsOf_eq_nil_of_flat e n hn hflat)]
  · intro ev hv
    have h1 : (eShift ev (n : ℚ)).x2 - (eShift ev (n : ℚ)).x1 = 0 := by
      simp [eShift, hv]
    rw [slopeE, if_pos h1]

/-- C4 (counterexample to the claim as stated): with the positive but
non-integer tileSize 1.9, the fully horizontal edge from (0,8) to (5,8)
gets a scan loop of one iteration (at y = 6.9), because
floor(ya, 1.9) + 1.9 falls below ya when the modulus is fractional; so
"zero iterations for horizontal edges at every positive tileSize" is
false. -/
theorem c4_counterexample :
    scanlines ⟨0, 8, 5, 8⟩ (19 / 10 : ℚ) = [69 / 10] ∧
      (⟨0, 8, 5, 8⟩ : EdgeQ).y1 = (⟨0, 8, 5, 8⟩ : EdgeQ).y2 ∧
      (0 : ℚ) < 19 / 10 := by
  with_unfolding_all decide

theorem c4_witness :
    scanlines ⟨100, 100, 200, 100⟩ ((20 : ℕ) : ℚ) = [] ∧
      computeFilledSquares [⟨100, 100, 200, 100⟩] ((20 : ℕ) : ℚ) =
        computeFilledSquares [] ((20 : ℕ) : ℚ) := by
  have h := c4_degenerate_skipped 20 (by norm_num) ⟨100, 100, 200, 100⟩ rfl
  exact ⟨h.1, h.2.1 [] []⟩

/-- C2 (counterexample to the claim as stated): for the diamond with
vertices (150,50), (250,150), (150,250), (50,150) and tileSize 20, the two
recorded crossings of scan-line 60 have floored x values 180 and 140, and
the emitted tiles include column 140/20 = 7 at row 3 even though 140 is the
minimum itself, not a multiple of 20 strictly between 140 and 180. -/
theorem c2_counterexample :
    ((allCrossings (mkEdges [(150, 50), (250, 150), (150, 250), (50, 150)]) 20).filter
        (fun ev => decide (ev.1 = 60)) =
      [(60, JSNum.fin 180), (60, JSNum.fin 140)]) ∧
      containsTile
        (computeFilledSquares (mkEdges [(150, 50), (250, 150), (150, 250), (50, 150)]) 20)
        7 3 = true ∧
      (7 : ℚ) = 140 / 20 ∧ (3 : ℚ) = 60 / 20 ∧
      ¬ (min (140 : ℚ) 180 < 140 ∧ (140 : ℚ) < max (140 : ℚ) 180) := by
  with_unfolding_all decide

/-- C2 (amended): when the second crossing of a scan-line `y` is processed,
with both the pending value and the incoming value finite multiples of the
(positive integer) tileSize, the pending entry for `y` is removed and the
marked tiles are exactly the old ones plus `(m, y/T)` for every integer `m`
with `min <= m*T < max` — the half-open span from the smaller recorded
value (included) to the larger (excluded). -/
theorem c2_pairing (n : ℕ) (hn : 1 ≤ n) (S : FillState) (y v w : ℚ) (jv jw : ℤ)
    (hpend : lookupX S.xValues y = some (JSNum.fin v))
    (hv : v = (jv : ℚ) * (n : ℚ)) (hw : w = (jw : ℚ) * (n : ℚ)) :
    lookupX (step (n : ℚ) S (y, JSNum.fin w)).xValues y = none ∧
      ∀ c r : ℚ,
        (containsTile (step (n : ℚ) S (y, JSNum.fin w)).squares c r = true ↔
          (containsTile S.squares c r = true ∨
            (r = y / (n : ℚ) ∧ ∃ m : ℤ, c = (m : ℚ) ∧
              min v w ≤ (m : ℚ) * (n : ℚ) ∧ (m : ℚ) * (n : ℚ) < max v w))) := by
  have hT : (0 : ℚ) < (n : ℚ) := by exact_mod_cast hn
  constructor
  · simp only [step, hpend]
    rw [lookupX_delX, if_pos rfl]
  · intro c r
    simp only [step, hpend]
    have hmin : jsMin (JSNum.fin w) (JSNum.fin v) = JSNum.fin (min v w) := by
      simp [jsMin, min_comm]
    have hmax : jsMax (JSNum.fin w) (JSNum.fin v) = JSNum.fin (max v w) := by
      simp [jsMax, max_comm]
    rw [hmin, hmax, containsTile_pushSpan]
    have hj : min v w = ((min jv jw : ℤ) : ℚ) * (n : ℚ) := by
      rcases le_total jv jw with h | h
      · have hvw : v ≤ w := by
          rw [hv, hw]
          exact mul_le_mul_of_nonneg_right (by exact_mod_cast h) hT.le
        rw [min_eq_left hvw, min_eq_left h, hv]
      · have hvw : w ≤ v := by
          rw [hv, hw]
          exact mul_le_mul_of_nonneg_right (by exact_mod_cast h) hT.le
        rw [min_eq_right hvw, min_eq_right h, hw]
    constructor
    · rintro (h | ⟨a, b, ha, hb, hr, hk⟩)
      · exact Or.inl h
      · injection ha with ha2
        injection hb with hb2
        subst ha2
        subst hb2
        obtain ⟨m, hm⟩ := (spanCount_mem_iff (min v w) (max v w) (n : ℚ) hT
          (min jv jw) hj c).mp hk
        exact Or.inr ⟨hr, m, hm⟩
    · rintro (h | ⟨hr, m, hm⟩)
      · exact Or.inl h
      · refine Or.inr ⟨min v w, max v w, rfl, rfl, hr, ?_⟩
        exact (spanCount_mem_iff (min v w) (max v w) (n : ℚ) hT
          (min jv jw) hj c).mpr ⟨m, hm⟩

theorem c2_witness :
    containsTile
      (step ((20 : ℕ) : ℚ) ⟨[], [(60, JSNum.fin 140)]⟩ (60, JSNum.fin 180)).squares
      7 3 = true := by
  have h := c2_pairing 20 (by norm_num) ⟨[], [(60, JSNum.fin 140)]⟩ 60 140 180 7 9
    (by with_unfolding_all decide) (by with_unfolding_all decide) (by with_unfolding_all decide)
  exact (h.2 7 3).mpr (Or.inr ⟨by with_unfolding_all decide, 7, rfl, by with_unfolding_all decide, by with_unfolding_all decide⟩)

/-- C3 (counterexample to the claim as stated): with the positive but
non-integer tileSize 1.9, the non-horizontal edge from (0,8) to (1,9) (with
non-negative shifted coordinates) is sampled exactly at y = 6.9, which is
neither a multiple of 1.9 nor above the shifted minimum y = 7.05; so the
sampling description fails for a fractional tileSize. -/
theorem c3_counterexample :
    scanlines ⟨0, 8, 1, 9⟩ (19 / 10 : ℚ) = [69 / 10] ∧
      (⟨0, 8, 1, 9⟩ : EdgeQ).y1 ≠ (⟨0, 8, 1, 9⟩ : EdgeQ).y2 ∧
      (0 : ℚ) ≤ yaE (eShift ⟨0, 8, 1, 9⟩ (19 / 10)) ∧
      (69 / 10 : ℚ) < yaE (eShift ⟨0, 8, 1, 9⟩ (19 / 10)) ∧
      ∀ m : ℤ, (69 / 10 : ℚ) ≠ (m : ℚ) * (19 / 10) := by
  refine ⟨by with_unfolding_all decide, by with_unfolding_all decide, by with_unfolding_all decide, by with_unfolding_all decide, ?_⟩
  intro m hm
  have h1 : (69 : ℚ) = (m : ℚ) * 19 := by
    field_simp at hm
    linarith
  have h2 : (69 : ℤ) = m * 19 := by exact_mod_cast h1
  omega

/-- C3 (amended): for a positive integer tileSize, a non-horizontal edge
with non-negative shifted coordinates is sampled exactly at the multiples
of T strictly above min(y1,y2) and up to max(y1,y2); the recorded value at
each sampled scan-line is the floor of the x-intersection (y-b)/m computed
from the slope and intercept formulas of the source, and the floor helper
really rounds a non-negative value down to the nearest multiple of T. -/
theorem c3_scan_sampling (e : EdgeQ) (n : ℕ) (hn : 1 ≤ n)
    (hnh : e.y1 ≠ e.y2) (hya : 0 ≤ yaE (eShift e (n : ℚ))) :
    (∀ y : ℚ, y ∈ scanlines e (n : ℚ) ↔
        (∃ m : ℤ, y = (m : ℚ) * (n : ℚ)) ∧
          yaE (eShift e (n : ℚ)) < y ∧ y ≤ ybE (eShift e (n : ℚ))) ∧
      crossingsOf e (n : ℚ) = (scanlines e (n : ℚ)).map (fun y =>
        (y, jsFloorNum (jsDivQ
          (y - ((eShift e (n : ℚ)).y1 - slopeE (eShift e (n : ℚ)) * (eShift e (n : ℚ)).x1))
          (slopeE (eShift e (n : ℚ)))) (n : ℚ))) ∧
      ∀ q : ℚ, 0 ≤ q →
        (∃ j : ℤ, floor q (n : ℚ) = (j : ℚ) * (n : ℚ)) ∧
          floor q (n : ℚ) ≤ q ∧ q < floor q (n : ℚ) + (n : ℚ) := by
  refine ⟨mem_scanlines_iff_nonneg e n hn hya, rfl, ?_⟩
  intro q hq
  exact ⟨floor_int_multiple q n hn, floor_int_le_self q n hn hq,
    self_lt_floor_int_add q n hn⟩

theorem c3_witness :
    (100 : ℚ) ∈ scanlines ⟨100, 100, 200, 150⟩ ((20 : ℕ) : ℚ) ∧
      floor (219 / 2) ((20 : ℕ) : ℚ) ≤ 219 / 2 := by
  have h := c3_scan_sampling ⟨100, 100, 200, 150⟩ 20 (by norm_num) (by norm_num)
    (by with_unfolding_all decide)
  constructor
  · exact (h.1 100).mpr ⟨⟨5, by norm_num⟩, by with_unfolding_all decide, by with_unfolding_all decide⟩
  · exact (h.2.2 (219 / 2) (by norm_num)).2.1

/-- C5 (amended): for a positive integer tileSize, if every scan-line is
crossed by zero or exactly two edges, the set of marked tiles is invariant
under permutation of the edge list.  (The counterexample below shows the
integrality assumption is necessary: at tileSize 1.9 the double flooring of
the recorded value is not idempotent and the order matters.) -/
theorem c5_order_invariance (n : ℕ) (hn : 1 ≤ n) (es es' : List EdgeQ)
    (p : es.Perm es')
    (H : ∀ y : ℚ, crossCount es (n : ℚ) y = 0 ∨ crossCount es (n : ℚ) y = 2)
    (c r : ℚ) :
    containsTile (computeFilledSquares es (n : ℚ)) c r =
      containsTile (computeFilledSquares es' (n : ℚ)) c r := by
  have hT0 : (0 : ℚ) < (n : ℚ) := by exact_mod_cast hn
  have hT : (n : ℚ) ≠ 0 := ne_of_gt hT0
  have hr : r = (r * (n : ℚ)) / (n : ℚ) := by field_simp
  rw [hr, containsTile_result_filtered es (n : ℚ) hT (r * (n : ℚ)) c,
    containsTile_result_filtered es' (n : ℚ) hT (r * (n : ℚ)) c]
  set y := r * (n : ℚ) with hy
  set L := (allCrossings es (n : ℚ)).filter (fun ev => decide (ev.1 = y)) with hL
  set L' := (allCrossings es' (n : ℚ)).filter (fun ev => decide (ev.1 = y)) with hL2
  have hperm : L.Perm L' := (allCrossings_perm (n : ℚ) p).filter _
  have hlen : L.length = crossCount es (n : ℚ) y := by
    rw [hL]
    exact length_filter_allCrossings es (n : ℚ) hT0 y
  rcases H y with h0 | h2
  · have hL0 : L = [] := List.length_eq_zero.mp (hlen.trans h0)
    have hL0' : L' = [] := List.length_eq_zero.mp (by rw [← hperm.length_eq, hlen, h0])
    rw [hL0, hL0']
  · have hlen2 : L.length = 2 := hlen.trans h2
    obtain ⟨a, b, hab⟩ := List.length_eq_two.mp hlen2
    have hperm2 : L'.Perm [a, b] := hperm.symm.trans (by rw [hab])
    rcases perm_pair_cases hperm2 with hcase | hcase
    · rw [hab, hcase]
    · have haL : a ∈ L := by rw [hab]; exact List.mem_cons_self _ _
      have hbL : b ∈ L := by rw [hab]; simp
      rw [hL] at haL hbL
      have hay : a.1 = y := of_decide_eq_true (List.mem_filter.mp haL).2
      have hby : b.1 = y := of_decide_eq_true (List.mem_filter.mp hbL).2
      obtain ⟨za, hza⟩ := mem_allCrossings_snd es (n : ℚ) a (List.mem_filter.mp haL).1
      obtain ⟨zb, hzb⟩ := mem_allCrossings_snd es (n : ℚ) b (List.mem_filter.mp hbL).1
      rw [hab, hcase]
      obtain ⟨a1, a2⟩ := a
      obtain ⟨b1, b2⟩ := b
      simp only at hay hby hza hzb
      subst hay
      subst hby
      rw [foldl_pair_swap n hn y a2 b2 ⟨za, hza⟩ ⟨zb, hzb⟩]

theorem c5_witness :
    containsTile
      (computeFilledSquares
        (mkEdges [(100, 100), (200, 100), (200, 200), (100, 200)]) ((20 : ℕ) : ℚ)) 5 5 =
      containsTile
        (computeFilledSquares
          ((mkEdges [(100, 100), (200, 100), (200, 200), (100, 200)]).reverse)
          ((20 : ℕ) : ℚ)) 5 5 := by
  apply c5_order_invariance 20 (by norm_num) _ _ (List.reverse_perm _).symm _ 5 5
  intro y
  by_cases hy :
    crossCount (mkEdges [(100, 100), (200, 100), (200, 200), (100, 200)]) ((20 : ℕ) : ℚ) y = 0
  · exact Or.inl hy
  · right
    obtain ⟨e, he, hyy⟩ := crossCount_pos_mem _ _ _ hy
    have hedges : mkEdges [((100 : ℚ), (100 : ℚ)), (200, 100), (200, 200), (100, 200)] =
        [⟨100, 100, 200, 100⟩, ⟨200, 100, 200, 200⟩, ⟨200, 200, 100, 200⟩,
          ⟨100, 200, 100, 100⟩] := by
      with_unfolding_all decide
    rw [hedges] at he
    have hmemlist : y ∈ ([100, 120, 140, 160, 180] : List ℚ) := by
      simp only [List.mem_cons, List.not_mem_nil, or_false] at he
      rcases he with rfl | rfl | rfl | rfl
      · rw [show scanlines (⟨100, 100, 200, 100⟩ : EdgeQ) ((20 : ℕ) : ℚ) = [] from by
          with_unfolding_all decide] at hyy
        cases hyy
      · rw [show scanlines (⟨200, 100, 200, 200⟩ : EdgeQ) ((20 : ℕ) : ℚ) =
            [100, 120, 140, 160, 180] from by with_unfolding_all decide] at hyy
        exact hyy
      · rw [show scanlines (⟨200, 200, 100, 200⟩ : EdgeQ) ((20 : ℕ) : ℚ) = [] from by
          with_unfolding_all decide] at hyy
        cases hyy
      · rw [show scanlines (⟨100, 200, 100, 100⟩ : EdgeQ) ((20 : ℕ) : ℚ) =
            [100, 120, 140, 160, 180] from by with_unfolding_all decide] at hyy
        exact hyy
    simp only [List.mem_cons, List.not_mem_nil, or_false] at hmemlist
    rcases hmemlist with rfl | rfl | rfl | rfl | rfl <;> with_unfolding_all decide

/-- C5 (counterexample to the claim as stated): at the positive tileSize
1.9, the triangle (0,2), (12,2), (6,6) has every visited scan-line crossed
by exactly two edges, yet reversing the edge list changes the marked set:
tile (0, 1) is marked in one order and not in the other.  The cause is that
the recorded x value is floored twice, and with a fractional tileSize the
second floor moves it again. -/
theorem c5_counterexample :
    ((mkEdges [(0, 2), (12, 2), (6, 6)]).Perm
        ((mkEdges [(0, 2), (12, 2), (6, 6)]).reverse)) ∧
      (∀ y : ℚ, crossCount (mkEdges [(0, 2), (12, 2), (6, 6)]) (19 / 10 : ℚ) y = 0 ∨
        crossCount (mkEdges [(0, 2), (12, 2), (6, 6)]) (19 / 10 : ℚ) y = 2) ∧
      containsTile
          (computeFilledSquares (mkEdges [(0, 2), (12, 2), (6, 6)]) (19 / 10 : ℚ)) 0 1 ≠
        containsTile
          (computeFilledSquares ((mkEdges [(0, 2), (12, 2), (6, 6)]).reverse)
            (19 / 10 : ℚ)) 0 1 := by
  refine ⟨(List.reverse_perm _).symm, ?_, by with_unfolding_all decide⟩
  intro y
  by_cases hy : crossCount (mkEdges [(0, 2), (12, 2), (6, 6)]) (19 / 10 : ℚ) y = 0
  · exact Or.inl hy
  · right
    obtain ⟨e, he, hyy⟩ := crossCount_pos_mem _ _ _ hy
    have hedges : mkEdges [((0 : ℚ), (2 : ℚ)), (12, 2), (6, 6)] =
        [⟨0, 2, 12, 2⟩, ⟨12, 2, 6, 6⟩, ⟨6, 6, 0, 2⟩] := by
      with_unfolding_all decide
    rw [hedges] at he
    have hmemlist : y ∈ ([19 / 10, 19 / 5] : List ℚ) := by
      simp only [List.mem_cons, List.not_mem_nil, or_false] at he
      rcases he with rfl | rfl | rfl
      · rw [show scanlines (⟨0, 2, 12, 2⟩ : EdgeQ) (19 / 10 : ℚ) = [] from by
          with_unfolding_all decide] at hyy
        cases hyy
      · rw [show scanlines (⟨12, 2, 6, 6⟩ : EdgeQ) (19 / 10 : ℚ) =
            [19 / 10, 19 / 5] from by with_unfolding_all decide] at hyy
        exact hyy
      · rw [show scanlines (⟨6, 6, 0, 2⟩ : EdgeQ) (19 / 10 : ℚ) =
            [19 / 10, 19 / 5] from by with_unfolding_all decide] at hyy
        exact hyy
    simp only [List.mem_cons, List.not_mem_nil, or_false] at hmemlist
    rcases hmemlist with rfl | rfl <;> with_unfolding_all decide

/-- C10: a scan-line crossed an odd number of times over the whole pass
keeps a pending entry in `xValues` when the fold finishes; the function
returns only the `squares` component, silently discarding the pending
table; and a scan-line crossed exactly once contributes no tiles at its
row. -/
theorem c10_pending_discarded (es : List EdgeQ) (T : ℚ) (hT : 0 < T) (y : ℚ) :
    (Odd (crossCount es T y) → lookupX (fillFold es T).xValues y ≠ none) ∧
      computeFilledSquares es T = (fillFold es T).squares ∧
      (crossCount es T y = 1 →
        ∀ c : ℚ, containsTile (computeFilledSquares es T) c (y / T) = false) := by
  refine ⟨?_, rfl, ?_⟩
  · intro hodd
    have hpar := lookupX_foldl_parity T y (allCrossings es T) ⟨[], []⟩
    rw [fillFold, foldl_accumulate_eq_allCrossings]
    intro hnone
    have hcnt : (allCrossings es T).countP (fun ev => decide (ev.1 = y)) =
        crossCount es T y := by
      rw [List.countP_eq_length_filter]
      exact length_filter_allCrossings es T hT y
    rw [hcnt] at hpar
    have heven : Even (crossCount es T y) := by
      have h2 := hpar.mp hnone
      simpa [lookupX] using h2
    exact (Nat.odd_iff_not_even.mp hodd) heven
  · intro h1 c
    rw [containsTile_result_filtered es T (ne_of_gt hT) y c]
    have hlen : ((allCrossings es T).filter (fun ev => decide (ev.1 = y))).length = 1 := by
      rw [length_filter_allCrossings es T hT y, h1]
    obtain ⟨a, ha⟩ := List.length_eq_one.mp hlen
    rw [ha]
    obtain ⟨a1, a2⟩ := a
    simp [step, lookupX, containsTile]

theorem c10_witness :
    lookupX (fillFold [⟨0, 0, 0, 40⟩] 20).xValues 20 ≠ none ∧
      containsTile (computeFilledSquares [⟨0, 0, 0, 40⟩] 20) 1 (20 / 20) = false := by
  have h := c10_pending_discarded [⟨0, 0, 0, 40⟩] 20 (by norm_num) 20
  have hc : crossCount [(⟨0, 0, 0, 40⟩ : EdgeQ)] (20 : ℚ) 20 = 1 := by
    with_unfolding_all decide
  exact ⟨h.1 (hc ▸ odd_one), h.2.2 hc 1⟩

/-! Support for the single-tile claim: edges of a polygon contained in one
grid cell can only ever mark that cell. -/

theorem mem_scanlines_gt_ya (e : EdgeQ) (n : ℕ) (hn : 1 ≤ n) (y : ℚ)
    (hy : y ∈ scanlines e (n : ℚ)) : yaE (eShift e (n : ℚ)) < y := by
  have hT : (0 : ℚ) < (n : ℚ) := by exact_mod_cast hn
  obtain ⟨m, rfl, hm1, _⟩ := (mem_scanlines_iff e n hn y).mp hy
  have h1 : yaE (eShift e (n : ℚ)) < scanStart (eShift e (n : ℚ)) (n : ℚ) := by
    rw [scanStart]
    exact self_lt_floor_int_add _ n hn
  have h2 : scanStart (eShift e (n : ℚ)) (n : ℚ) ≤ (m : ℚ) * (n : ℚ) := by
    rw [scanStart_int _ n hn]
    have hc : ((ratTrunc (yaE (eShift e (n : ℚ)) / (n : ℚ)) + 1 : ℤ) : ℚ) ≤ (m : ℚ) := by
      exact_mod_cast hm1
    exact mul_le_mul_of_nonneg_right hc hT.le
  linarith

theorem mem_scanlines_le_yb (e : EdgeQ) (n : ℕ) (hn : 1 ≤ n) (y : ℚ)
    (hy : y ∈ scanlines e (n : ℚ)) : y ≤ ybE (eShift e (n : ℚ)) := by
  obtain ⟨m, rfl, _, hm2⟩ := (mem_scanlines_iff e n hn y).mp hy
  exact hm2

theorem scanlines_cell_row (e : EdgeQ) (n : ℕ) (hn : 1 ≤ n) (r : ℕ)
    (hy1 : (r : ℚ) * (n : ℚ) ≤ e.y1) (hy1b : e.y1 < ((r : ℚ) + 1) * (n : ℚ))
    (hy2 : (r : ℚ) * (n : ℚ) ≤ e.y2) (hy2b : e.y2 < ((r : ℚ) + 1) * (n : ℚ)) :
    ∀ y ∈ scanlines e (n : ℚ), y = (r : ℚ) * (n : ℚ) := by
  intro y hy
  have hT : (0 : ℚ) < (n : ℚ) := by exact_mod_cast hn
  have hgt := mem_scanlines_gt_ya e n hn y hy
  have hle := mem_scanlines_le_yb e n hn y hy
  obtain ⟨m, rfl, _, _⟩ := (mem_scanlines_iff e n hn y).mp hy
  have hya_lb : (r : ℚ) * (n : ℚ) - (n : ℚ) / 2 ≤ yaE (eShift e (n : ℚ)) := by
    rw [yaE, eShift]
    simp only [le_min_iff]
    constructor <;> [linarith; linarith]
  have hyb_ub : ybE (eShift e (n : ℚ)) < (r : ℚ) * (n : ℚ) + (n : ℚ) / 2 := by
    rw [ybE, eShift]
    simp only [max_lt_iff]
    constructor <;> [linarith; linarith]
  have hm_ub : m ≤ (r : ℤ) := by
    by_contra hcon
    push_neg at hcon
    have h1 : ((r : ℚ) + 1) * (n : ℚ) ≤ (m : ℚ) * (n : ℚ) := by
      have hc : ((r : ℚ) + 1) ≤ (m : ℚ) := by
        have : ((r : ℤ) + 1 : ℤ) ≤ m := hcon
        exact_mod_cast this
      exact mul_le_mul_of_nonneg_right hc hT.le
    nlinarith
  have hm_lb : (r : ℤ) ≤ m := by
    by_contra hcon
    push_neg at hcon
    have h1 : (m : ℚ) * (n : ℚ) ≤ ((r : ℚ) - 1) * (n : ℚ) := by
      have hc : (m : ℚ) ≤ ((r : ℚ) - 1) := by
        have : m ≤ (r : ℤ) - 1 := by omega
        exact_mod_cast this
      exact mul_le_mul_of_nonneg_right hc hT.le
    nlinarith
  have hm : m = (r : ℤ) := le_antisymm hm_ub hm_lb
  rw [hm]
  push_cast
  ring

theorem xAtScan_between (e : EdgeQ) (y : ℚ)
    (hrun : e.x2 - e.x1 ≠ 0) (hrise : e.y2 - e.y1 ≠ 0)
    (hy1 : yaE e ≤ y) (hy2 : y ≤ ybE e) :
    ∃ q : ℚ, xAtScan e y = JSNum.fin q ∧ min e.x1 e.x2 ≤ q ∧ q ≤ max e.x1 e.x2 := by
  have hm : slopeE e = (e.y2 - e.y1) / (e.x2 - e.x1) := if_neg hrun
  have hm0 : slopeE e ≠ 0 := by
    rw [hm]
    exact div_ne_zero hrise hrun
  set t : ℚ := (y - e.y1) / (e.y2 - e.y1) with htdef
  have hq : (y - interceptE e) / slopeE e = e.x1 + t * (e.x2 - e.x1) := by
    rw [interceptE, hm, htdef]
    field_simp
    ring
  have ht0 : 0 ≤ t := by
    rcases lt_or_gt_of_ne hrise with hb | hb
    · have hy1b : e.y2 ≤ y := by
        rw [yaE, min_eq_right (by linarith : e.y2 ≤ e.y1)] at hy1
        exact hy1
      have hy2b : y ≤ e.y1 := by
        rw [ybE, max_eq_left (by linarith : e.y2 ≤ e.y1)] at hy2
        exact hy2
      exact div_nonneg_of_nonpos (by linarith) (by linarith)
    · have hy1b : e.y1 ≤ y := by
        rw [yaE, min_eq_left (by linarith : e.y1 ≤ e.y2)] at hy1
        exact hy1
      exact div_nonneg (by linarith) (by linarith)
  have ht1 : t ≤ 1 := by
    have hsub : t - 1 = (y - e.y2) / (e.y2 - e.y1) := by
      rw [htdef]
      field_simp
    have hnp : (y - e.y2) / (e.y2 - e.y1) ≤ 0 := by
      rcases lt_or_gt_of_ne hrise with hb | hb
      · have hy1b : e.y2 ≤ y := by
          rw [yaE, min_eq_right (by linarith : e.y2 ≤ e.y1)] at hy1
          exact hy1
        rw [div_nonpos_iff]
        left
        constructor <;> linarith
      · have hy2b : y ≤ e.y2 := by
          rw [ybE, max_eq_right (by linarith : e.y1 ≤ e.y2)] at hy2
          exact hy2
        rw [div_nonpos_iff]
        right
        constructor <;> linarith
    linarith [hsub, hnp]
  refine ⟨(y - interceptE e) / slopeE e, by rw [xAtScan, jsDivQ, if_neg hm0], ?_, ?_⟩
  · rcases le_total e.x1 e.x2 with hx | hx
    · rw [min_eq_left hx, hq]
      nlinarith [mul_nonneg ht0 (by linarith : (0 : ℚ) ≤ e.x2 - e.x1)]
    · rw [min_eq_right hx, hq]
      nlinarith [mul_nonneg (by linarith : (0 : ℚ) ≤ 1 - t)
        (by linarith : (0 : ℚ) ≤ e.x1 - e.x2)]
  · rcases le_total e.x1 e.x2 with hx | hx
    · rw [max_eq_right hx, hq]
      nlinarith [mul_nonneg (by linarith : (0 : ℚ) ≤ 1 - t)
        (by linarith : (0 : ℚ) ≤ e.x2 - e.x1)]
    · rw [max_eq_left hx, hq]
      nlinarith [mul_nonneg ht0 (by linarith : (0 : ℚ) ≤ e.x1 - e.x2)]

theorem floor_half_bucket (q : ℚ) (n : ℕ) (hn : 1 ≤ n) (c : ℕ)
    (h1 : (c : ℚ) * (n : ℚ) + (n : ℚ) / 2 ≤ q)
    (h2 : q < ((c : ℚ) + 1) * (n : ℚ) + (n : ℚ) / 2) :
    floor q (n : ℚ) = (c : ℚ) * (n : ℚ) ∨
      floor q (n : ℚ) = ((c : ℚ) + 1) * (n : ℚ) := by
  have hT : (0 : ℚ) < (n : ℚ) := by exact_mod_cast hn
  have hc0 : (0 : ℚ) ≤ (c : ℚ) := Nat.cast_nonneg c
  have hq0 : 0 ≤ q := by nlinarith
  rw [floor_int_nonneg_eq q n hn hq0]
  have hfl_lb : (c : ℤ) ≤ ⌊q / (n : ℚ)⌋ := by
    apply Int.le_floor.mpr
    rw [le_div_iff₀ hT]
    push_cast
    nlinarith
  have hfl_ub : ⌊q / (n : ℚ)⌋ ≤ (c : ℤ) + 1 := by
    have h3 : q / (n : ℚ) < (c : ℚ) + 2 := by
      rw [div_lt_iff₀ hT]
      nlinarith
    have h4 : ⌊q / (n : ℚ)⌋ < (c : ℤ) + 2 := by
      apply Int.floor_lt.mpr
      push_cast
      exact h3
    omega
  rcases (show ⌊q / (n : ℚ)⌋ = (c : ℤ) ∨ ⌊q / (n : ℚ)⌋ = (c : ℤ) + 1 by omega) with hf | hf
  · left
    rw [hf]
    push_cast
    ring
  · right
    rw [hf]
    push_cast
    ring

theorem getD_mem_of_lt {α : Type} (l : List α) (d : α) :
    ∀ i : ℕ, i < l.length → l.getD i d ∈ l := by
  induction l with
  | nil => intro i h; cases h
  | cons a l ih =>
    intro i h
    cases i with
    | zero => exact List.mem_cons_self _ _
    | succ i => exact List.mem_cons_of_mem a (ih i (Nat.lt_of_succ_lt_succ h))

theorem mkEdges_mem (pts : List (ℚ × ℚ)) (e : EdgeQ) (he : e ∈ mkEdges pts) :
    (e.x1, e.y1) ∈ pts ∧ (e.x2, e.y2) ∈ pts := by
  rw [mkEdges] at he
  obtain ⟨i, hi, hie⟩ := List.mem_map.mp he
  have hi2 : i < pts.length := List.mem_range.mp hi
  have hlen : 0 < pts.length := Nat.lt_of_le_of_lt (Nat.zero_le i) hi2
  have h1 : (e.x1, e.y1) = pts.getD i (0, 0) := by rw [← hie]
  have h2 : (e.x2, e.y2) = pts.getD ((i + 1) % pts.length) (0, 0) := by rw [← hie]
  constructor
  · rw [h1]
    exact getD_mem_of_lt pts (0, 0) i hi2
  · rw [h2]
    exact getD_mem_of_lt pts (0, 0) _ (Nat.mod_lt _ hlen)

theorem spanCount_of_le (xa xb T : ℚ) (h : xb ≤ xa) : spanCount xa xb T = 0 := by
  rw [spanCount]
  split_ifs with h1
  · rfl
  · rfl

theorem spanCount_adjacent (a T : ℚ) (hT : 0 < T) : spanCount a (a + T) T = 1 := by
  rw [spanCount, if_neg (not_le.mpr hT), if_neg (by linarith : ¬ a + T ≤ a)]
  have h1 : (a + T - a) / T = 1 := by
    field_simp
  rw [h1, Int.ceil_one]
  rfl

theorem span_col (n : ℕ) (hn : 1 ≤ n) (c : ℕ) (u v : ℚ)
    (hu : u = (c : ℚ) * (n : ℚ) ∨ u = ((c : ℚ) + 1) * (n : ℚ))
    (hv : v = (c : ℚ) * (n : ℚ) ∨ v = ((c : ℚ) + 1) * (n : ℚ))
    (k : ℕ) (hk : k < spanCount (min u v) (max u v) (n : ℚ)) (a : ℚ)
    (hc : a = (min u v + (k : ℚ) * (n : ℚ)) / (n : ℚ)) : a = (c : ℚ) := by
  have hT : (0 : ℚ) < (n : ℚ) := by exact_mod_cast hn
  have hcc : (c : ℚ) * (n : ℚ) ≤ ((c : ℚ) + 1) * (n : ℚ) := by nlinarith
  have hstep : ((c : ℚ) + 1) * (n : ℚ) = (c : ℚ) * (n : ℚ) + (n : ℚ) := by ring
  rcases hu with rfl | rfl <;> rcases hv with rfl | rfl
  · rw [min_self, max_self, spanCount_of_le _ _ _ (le_refl _)] at hk
    omega
  · rw [min_eq_left hcc, max_eq_right hcc, hstep, spanCount_adjacent _ _ hT] at hk
    rw [min_eq_left hcc] at hc
    have hk0 : k = 0 := by omega
    subst hk0
    rw [hc]
    push_cast
    field_simp
  · rw [min_comm, max_comm, min_eq_left hcc, max_eq_right hcc, hstep,
      spanCount_adjacent _ _ hT] at hk
    rw [min_comm, min_eq_left hcc] at hc
    have hk0 : k = 0 := by omega
    subst hk0
    rw [hc]
    push_cast
    field_simp
  · rw [min_self, max_self, spanCount_of_le _ _ _ (le_refl _)] at hk
    omega

theorem crossings_cell (e : EdgeQ) (n : ℕ) (hn : 1 ≤ n) (c r : ℕ)
    (hx1 : (c : ℚ) * (n : ℚ) ≤ e.x1) (hx1b : e.x1 < ((c : ℚ) + 1) * (n : ℚ))
    (hy1 : (r : ℚ) * (n : ℚ) ≤ e.y1) (hy1b : e.y1 < ((r : ℚ) + 1) * (n : ℚ))
    (hx2 : (c : ℚ) * (n : ℚ) ≤ e.x2) (hx2b : e.x2 < ((c : ℚ) + 1) * (n : ℚ))
    (hy2 : (r : ℚ) * (n : ℚ) ≤ e.y2) (hy2b : e.y2 < ((r : ℚ) + 1) * (n : ℚ)) :
    ∀ ev ∈ crossingsOf e (n : ℚ), ev.1 = (r : ℚ) * (n : ℚ) ∧
      (ev.2 = JSNum.nan ∨ ev.2 = JSNum.fin ((c : ℚ) * (n : ℚ)) ∨
        ev.2 = JSNum.fin (((c : ℚ) + 1) * (n : ℚ))) := by
  intro ev hev
  have hT : (0 : ℚ) < (n : ℚ) := by exact_mod_cast hn
  rw [crossingsOf] at hev
  obtain ⟨y, hy, hye⟩ := List.mem_map.mp hev
  have hrow : y = (r : ℚ) * (n : ℚ) :=
    scanlines_cell_row e n hn r hy1 hy1b hy2 hy2b y hy
  refine ⟨by rw [← hye, hrow], ?_⟩
  by_cases hrun : (eShift e (n : ℚ)).x2 - (eShift e (n : ℚ)).x1 = 0
  · left
    have hsl : slopeE (eShift e (n : ℚ)) = 0 := if_pos hrun
    rw [← hye]
    show jsFloorNum (xAtScan (eShift e (n : ℚ)) y) (n : ℚ) = JSNum.nan
    rw [xAtScan, hsl, jsDivQ, if_pos rfl]
    split_ifs <;> rfl
  · by_cases hrise : (eShift e (n : ℚ)).y2 - (eShift e (n : ℚ)).y1 = 0
    · exfalso
      have hflat : e.y1 = e.y2 := by
        simp only [eShift] at hrise
        linarith
      rw [scanlines_eq_nil_of_flat e n hn hflat] at hy
      cases hy
    · have hya := mem_scanlines_gt_ya e n hn y hy
      have hyb := mem_scanlines_le_yb e n hn y hy
      obtain ⟨q, hq, hq1, hq2⟩ :=
        xAtScan_between (eShift e (n : ℚ)) y hrun hrise (le_of_lt hya) hyb
      have hxl : (c : ℚ) * (n : ℚ) + (n : ℚ) / 2 ≤ q := by
        apply le_trans ?_ hq1
        simp only [eShift, le_min_iff]
        constructor <;> linarith
      have hxu : q < ((c : ℚ) + 1) * (n : ℚ) + (n : ℚ) / 2 := by
        apply lt_of_le_of_lt hq2
        simp only [eShift, max_lt_iff]
        constructor <;> linarith
      rw [← hye]
      show jsFloorNum (xAtScan (eShift e (n : ℚ)) y) (n : ℚ) = JSNum.nan ∨ _ ∨ _
      rw [hq, jsFloorNum, if_neg (ne_of_gt hT)]
      rcases floor_half_bucket q n hn c hxl hxu with hf | hf
      · right
        left
        rw [hf]
      · right
        right
        rw [hf]

/-- Invariant carried through the fill of a polygon contained in the grid
cell `(c, r)`: every marked tile is `(c, r)` and every pending value is NaN
or one of the two floored cell columns. -/
def cellInv (n : ℕ) (c r : ℕ) (S : FillState) : Prop :=
  (∀ a b : ℚ, containsTile S.squares a b = true → a = (c : ℚ) ∧ b = (r : ℚ)) ∧
    (∀ y v, lookupX S.xValues y = some v →
      v = JSNum.nan ∨ v = JSNum.fin ((c : ℚ) * (n : ℚ)) ∨
        v = JSNum.fin (((c : ℚ) + 1) * (n : ℚ)))

theorem foldl_invariant {α β : Type} (P : β → Prop) (f : β → α → β) :
    ∀ (l : List α) (b : β), P b → (∀ b2 a2, a2 ∈ l → P b2 → P (f b2 a2)) →
      P (l.foldl f b) := by
  intro l
  induction l with
  | nil => intro b hb _; exact hb
  | cons a l ih =>
    intro b hb hstep
    exact ih (f b a) (hstep b a (List.mem_cons_self a l) hb)
      (fun b2 a2 ha2 => hstep b2 a2 (List.mem_cons_of_mem a ha2))

theorem step_preserves_cellInv (n : ℕ) (hn : 1 ≤ n) (c r : ℕ) (S : FillState)
    (ev : ℚ × JSNum)
    (hev1 : ev.1 = (r : ℚ) * (n : ℚ))
    (hev2 : ev.2 = JSNum.nan ∨ ev.2 = JSNum.fin ((c : ℚ) * (n : ℚ)) ∨
      ev.2 = JSNum.fin (((c : ℚ) + 1) * (n : ℚ)))
    (hS : cellInv n c r S) : cellInv n c r (step (n : ℚ) S ev) := by
  have hT : (0 : ℚ) < (n : ℚ) := by exact_mod_cast hn
  have hTne : (n : ℚ) ≠ 0 := ne_of_gt hT
  have hfloor_keep : jsFloorNum ev.2 (n : ℚ) = JSNum.nan ∨
      jsFloorNum ev.2 (n : ℚ) = JSNum.fin ((c : ℚ) * (n : ℚ)) ∨
      jsFloorNum ev.2 (n : ℚ) = JSNum.fin (((c : ℚ) + 1) * (n : ℚ)) := by
    rcases hev2 with h2 | h2 | h2 <;> rw [h2]
    · left
      rfl
    · right
      left
      rw [jsFloorNum, if_neg hTne]
      have : floor ((c : ℚ) * (n : ℚ)) (n : ℚ) = (c : ℚ) * (n : ℚ) := by
        have h3 := floor_int_of_multiple (c : ℤ) n hn
        push_cast at h3
        exact h3
      rw [this]
    · right
      right
      rw [jsFloorNum, if_neg hTne]
      have : floor (((c : ℚ) + 1) * (n : ℚ)) (n : ℚ) = ((c : ℚ) + 1) * (n : ℚ) := by
        have h3 := floor_int_of_multiple ((c : ℤ) + 1) n hn
        push_cast at h3
        exact h3
      rw [this]
  rcases hl : lookupX S.xValues ev.1 with _ | x0
  · constructor
    · intro a b h
      exact hS.1 a b (by simpa [step, hl] using h)
    · intro y v hv
      simp only [step, hl] at hv
      rw [lookupX_setX] at hv
      by_cases hyv : y = ev.1
      · rw [if_pos hyv] at hv
        injection hv with hv2
        rw [← hv2]
        exact hfloor_keep
      · rw [if_neg hyv] at hv
        exact hS.2 y v hv
  · have hx0good := hS.2 ev.1 x0 hl
    constructor
    · intro a b h
      simp only [step, hl] at h
      rw [containsTile_pushSpan] at h
      rcases h with h | ⟨xa, xb, hxa, hxb, hb, k, hk, hcol⟩
      · exact hS.1 a b h
      · have hbrow : b = (r : ℚ) := by
          rw [hb, hev1]
          field_simp
        refine ⟨?_, hbrow⟩
        rcases hev2 with h2 | h2 | h2 <;> rcases hx0good with h0 | h0 | h0 <;>
            rw [h2, h0] at hxa hxb
        · exact absurd hxa (by simp [jsMin])
        · exact absurd hxa (by simp [jsMin])
        · exact absurd hxa (by simp [jsMin])
        · exact absurd hxa (by simp [jsMin])
        · simp only [jsMin, jsMax, JSNum.fin.injEq] at hxa hxb
          exact span_col n hn c _ _ (Or.inl rfl) (Or.inl rfl) k
            (by rw [hxa, hxb]; exact hk) a (by rw [hxa]; exact hcol)
        · simp only [jsMin, jsMax, JSNum.fin.injEq] at hxa hxb
          exact span_col n hn c _ _ (Or.inl rfl) (Or.inr rfl) k
            (by rw [hxa, hxb]; exact hk) a (by rw [hxa]; exact hcol)
        · exact absurd hxa (by simp [jsMin])
        · simp only [jsMin, jsMax, JSNum.fin.injEq] at hxa hxb
          exact span_col n hn c _ _ (Or.inr rfl) (Or.inl rfl) k
            (by rw [hxa, hxb]; exact hk) a (by rw [hxa]; exact hcol)
        · simp only [jsMin, jsMax, JSNum.fin.injEq] at hxa hxb
          exact span_col n hn c _ _ (Or.inr rfl) (Or.inr rfl) k
            (by rw [hxa, hxb]; exact hk) a (by rw [hxa]; exact hcol)
    · intro y v hv
      simp only [step, hl] at hv
      rw [lookupX_delX] at hv
      by_cases hyv : y = ev.1
      · rw [if_pos hyv] at hv
        cases hv
      · rw [if_neg hyv] at hv
        exact hS.2 y v hv

/-- C6 (amended): for a positive integer tileSize, a polygon whose vertices
all lie in the half-open grid cell of tile `(c, r)` can only mark the tile
`(c, r)` itself: the result is a subset of that single tile.  (The
counterexample below shows the cell-crossing scan-line can really mark it,
so the original "always empty" claim is false.) -/
theorem c6_single_tile_subset (n : ℕ) (hn : 1 ≤ n) (pts : List (ℚ × ℚ)) (c r : ℕ)
    (hcell : ∀ p ∈ pts, (c : ℚ) * (n : ℚ) ≤ p.1 ∧ p.1 < ((c : ℚ) + 1) * (n : ℚ) ∧
      (r : ℚ) * (n : ℚ) ≤ p.2 ∧ p.2 < ((r : ℚ) + 1) * (n : ℚ))
    (a b : ℚ)
    (h : containsTile (computeFilledSquares (mkEdges pts) (n : ℚ)) a b = true) :
    a = (c : ℚ) ∧ b = (r : ℚ) := by
  have hinv : cellInv n c r (fillFold (mkEdges pts) (n : ℚ)) := by
    rw [fillFold]
    apply foldl_invariant (cellInv n c r) (accumulateSquaresForEdge (n : ℚ))
      (mkEdges pts) ⟨[], []⟩
    · constructor
      · intro a2 b2 h2
        cases h2
      · intro y v hv
        cases hv
    · intro S e he hS
      rw [accumulateSquaresForEdge]
      apply foldl_invariant (cellInv n c r) (step (n : ℚ)) (crossingsOf e (n : ℚ)) S hS
      intro S2 ev hev hS2
      obtain ⟨he1, he2⟩ := mkEdges_mem pts e he
      obtain ⟨hx1, hx1b, hy1, hy1b⟩ := hcell _ he1
      obtain ⟨hx2, hx2b, hy2, hy2b⟩ := hcell _ he2
      obtain ⟨hev1, hev2⟩ := crossings_cell e n hn c r hx1 hx1b hy1 hy1b hx2 hx2b
        hy2 hy2b ev hev
      exact step_preserves_cellInv n hn c r S2 ev hev1 hev2 hS2
  exact hinv.1 a b h

/-- C6 (counterexample to the claim as stated): the triangle (100,100),
(119,100), (110,119) lies entirely inside the single tile (5,5) at
tileSize 20, yet the fill marks tile (5,5): the offset scan-line y = 100
crosses the triangle, so the result is not empty. -/
theorem c6_counterexample :
    (∀ p ∈ [((100 : ℚ), (100 : ℚ)), (119, 100), (110, 119)],
      (5 : ℚ) * 20 ≤ p.1 ∧ p.1 < ((5 : ℚ) + 1) * 20 ∧
        (5 : ℚ) * 20 ≤ p.2 ∧ p.2 < ((5 : ℚ) + 1) * 20) ∧
      containsTile
        (computeFilledSquares (mkEdges [(100, 100), (119, 100), (110, 119)]) 20)
        5 5 = true := by
  with_unfolding_all decide

theorem c6_witness :
    (5 : ℚ) = ((5 : ℕ) : ℚ) ∧ (5 : ℚ) = ((5 : ℕ) : ℚ) := by
  apply c6_single_tile_subset 20 (by norm_num)
    [(100, 100), (119, 100), (110, 119)] 5 5
    (by with_unfolding_all decide) 5 5
    (by with_unfolding_all decide)

/-! The Polygon model: vertex initialisation (`initializePieces`) and
`vertexPositions`.  Coordinates here are real numbers because the radial
branch uses cosine and sine; the attribute round-trip of `Vertex.position`
is `parseInt` of the stored value, modelled as truncation toward zero
(exact for every coordinate whose decimal rendering is plain). -/

/-- Radial placement of vertex `i` in `initializePieces`:
`150 + cos((2 pi i + pi/2) / sides) * 100` and the same with sine.  Note
the whole numerator is divided by `sides`, so the starting angle is
`(pi/2) / sides`, not `pi/2`. -/
noncomputable def radialPoint (sides : ℕ) (i : ℕ) : ℝ × ℝ :=
  (150 + Real.cos ((Real.pi * 2 * i + Real.pi / 2) / sides) * 100,
   150 + Real.sin ((Real.pi * 2 * i + Real.pi / 2) / sides) * 100)

/-- The initial vertex positions chosen by `initializePieces`: entry `i` of
`options.points` when present, the radial position otherwise (the check is
per index). -/
noncomputable def initPositions (sides : ℕ) (points : List (ℝ × ℝ)) : List (ℝ × ℝ) :=
  (List.range sides).map (fun i => points.getD i (radialPoint sides i))

/-- Spec reading of the C8 sentence, for comparison with the source: use
the points when there are at least `sides` of them, otherwise place every
vertex on the circle of radius 100 around (150,150) starting at angle 90
degrees with step 360/sides degrees. -/
noncomputable def claimInitPositions (sides : ℕ) (points : List (ℝ × ℝ)) : List (ℝ × ℝ) :=
  if sides ≤ points.length then points.take sides
  else (List.range sides).map (fun (i : ℕ) =>
    (150 + Real.cos (Real.pi / 2 + 2 * Real.pi * (i : ℝ) / (sides : ℝ)) * 100,
     150 + Real.sin (Real.pi / 2 + 2 * Real.pi * (i : ℝ) / (sides : ℝ)) * 100))

/-- parseInt of a stored numeric attribute: truncation toward zero. -/
noncomputable def jsParseInt (x : ℝ) : ℤ :=
  if x < 0 then ⌈x⌉ else ⌊x⌋

/-- vertexPositions(): the current vertex coordinates, each parsed back
from its attribute with parseInt. -/
noncomputable def vertexPositions (sides : ℕ) (points : List (ℝ × ℝ)) : List (ℝ × ℝ) :=
  (initPositions sides points).map
    (fun p => ((jsParseInt p.1 : ℝ), (jsParseInt p.2 : ℝ)))

theorem get?_eq_some_getD {α : Type} (l : List α) (d : α) :
    ∀ i : ℕ, i < l.length → l.get? i = some (l.getD i d) := by
  induction l with
  | nil => intro i h; cases h
  | cons a l ih =>
    intro i h
    cases i with
    | zero => rfl
    | succ i => exact ih i (Nat.lt_of_succ_lt_succ h)

theorem initPositions_get? (sides : ℕ) (points : List (ℝ × ℝ)) (i : ℕ)
    (hi : i < sides) :
    (initPositions sides points).get? i =
      some (points.getD i (radialPoint sides i)) := by
  rw [initPositions, List.get?_map, List.get?_range hi]
  rfl

theorem initPositions_take (sides : ℕ) (points : List (ℝ × ℝ))
    (hle : sides ≤ points.length) :
    initPositions sides points = points.take sides := by
  apply List.ext
  intro i
  by_cases hi : i < sides
  · rw [initPositions_get? sides points i hi, List.get?_take hi,
      get?_eq_some_getD points (radialPoint sides i) i (lt_of_lt_of_le hi hle)]
  · have h1 : (initPositions sides points).length ≤ i := by
      rw [initPositions, List.length_map, List.length_range]
      omega
    have h2 : (points.take sides).length ≤ i := by
      rw [List.length_take]
      omega
    rw [List.get?_eq_none.mpr h1, List.get?_eq_none.mpr h2]

/-- C8 (amended): `initializePieces` uses entry `i` of `optionalPoints` for
every index where one exists — in particular the whole list when it has at
least `sides` entries — and places each missing index at the radial
position with angle `(2 pi i + pi/2) / sides`, so the starting angle is
`90/sides` degrees rather than the 90 degrees the spec states, and a
partially specified list is filled per index rather than ignored. -/
theorem c8_init_positions (sides : ℕ) (points : List (ℝ × ℝ)) :
    (sides ≤ points.length → initPositions sides points = points.take sides) ∧
      ∀ i, i < sides →
        (initPositions sides points).get? i =
          some (points.getD i (radialPoint sides i)) := by
  exact ⟨initPositions_take sides points, initPositions_get? sides points⟩

theorem c8_witness :
    initPositions 3 [((1 : ℝ), (2 : ℝ)), (3, 4), (5, 6)] =
      [((1 : ℝ), (2 : ℝ)), (3, 4), (5, 6)].take 3 := by
  exact (c8_init_positions 3 _).1 (by norm_num)

/-- C8 (counterexample to the claim as stated): with sides = 3 and the
partially specified list [(7,8)], the source keeps (7,8) as vertex 0,
whereas the spec sentence predicts the all-radial layout whose vertex 0
sits at angle 90 degrees, namely (150, 250). -/
theorem c8_counterexample :
    (initPositions 3 [((7 : ℝ), (8 : ℝ))]).get? 0 = some ((7 : ℝ), (8 : ℝ)) ∧
      (claimInitPositions 3 [((7 : ℝ), (8 : ℝ))]).get? 0 = some ((150 : ℝ), (250 : ℝ)) ∧
      ((7 : ℝ), (8 : ℝ)) ≠ ((150 : ℝ), (250 : ℝ)) := by
  refine ⟨?_, ?_, ?_⟩
  · rw [initPositions_get? 3 _ 0 (by norm_num)]
    rfl
  · rw [claimInitPositions,
      if_neg (by norm_num : ¬ (3 ≤ ([((7 : ℝ), (8 : ℝ))]).length)),
      List.get?_map, List.get?_range (by norm_num : 0 < 3)]
    norm_num [Real.cos_pi_div_two, Real.sin_pi_div_two]
  · intro h
    have h2 := congrArg Prod.fst h
    norm_num at h2

theorem map_eq_self_of {α : Type} (l : List α) (f : α → α)
    (h : ∀ x ∈ l, f x = x) : l.map f = l := by
  induction l with
  | nil => rfl
  | cons a l ih =>
    rw [List.map_cons, h a (List.mem_cons_self a l),
      ih (fun x hx => h x (List.mem_cons_of_mem a hx))]

/-- C7 (amended): with at least `sides` points supplied,
`vertexPositions()` right after construction returns the first `sides`
points with each coordinate truncated toward zero by the
parseInt round-trip; when exactly `sides` integer-valued points are
supplied it returns them unchanged. -/
theorem c7_roundtrip_trunc (sides : ℕ) (points : List (ℝ × ℝ))
    (hle : sides ≤ points.length) :
    vertexPositions sides points =
      (points.take sides).map
        (fun p => ((jsParseInt p.1 : ℝ), (jsParseInt p.2 : ℝ))) ∧
      ((points.length = sides ∧
          ∀ p ∈ points, (∃ a : ℤ, p.1 = (a : ℝ)) ∧ ∃ b : ℤ, p.2 = (b : ℝ)) →
        vertexPositions sides points = points) := by
  have h1 : vertexPositions sides points =
      (points.take sides).map
        (fun p => ((jsParseInt p.1 : ℝ), (jsParseInt p.2 : ℝ))) := by
    rw [vertexPositions, initPositions_take sides points hle]
  refine ⟨h1, ?_⟩
  rintro ⟨hlen, hint⟩
  rw [h1, ← hlen, List.take_length]
  apply map_eq_self_of
  intro p hp
  obtain ⟨⟨a, ha⟩, ⟨b, hb⟩⟩ := hint p hp
  have hpa : jsParseInt p.1 = a := by
    rw [ha, jsParseInt]
    split_ifs
    · exact Int.ceil_intCast a
    · exact Int.floor_intCast a
  have hpb : jsParseInt p.2 = b := by
    rw [hb, jsParseInt]
    split_ifs
    · exact Int.ceil_intCast b
    · exact Int.floor_intCast b
  rw [hpa, hpb, ← ha, ← hb]

theorem c7_witness :
    vertexPositions 3 [((1 : ℝ), (2 : ℝ)), (3, 4), (5, 6)] =
      [((1 : ℝ), (2 : ℝ)), (3, 4), (5, 6)] := by
  apply (c7_roundtrip_trunc 3 [((1 : ℝ), (2 : ℝ)), (3, 4), (5, 6)] (by norm_num)).2
  refine ⟨rfl, ?_⟩
  intro p hp
  simp only [List.mem_cons, List.not_mem_nil, or_false] at hp
  rcases hp with rfl | rfl | rfl
  · exact ⟨⟨1, by norm_num⟩, ⟨2, by norm_num⟩⟩
  · exact ⟨⟨3, by norm_num⟩, ⟨4, by norm_num⟩⟩
  · exact ⟨⟨5, by norm_num⟩, ⟨6, by norm_num⟩⟩

/-- C7 (counterexample to the claim as stated): a fully specified list with
the fractional coordinate 1/2 does not round-trip: parseInt truncates it to
0, which is far outside floating-point tolerance. -/
theorem c7_counterexample :
    vertexPositions 3 [((1 / 2 : ℝ), 1), (2, 3), (4, 5)] ≠
      [((1 / 2 : ℝ), 1), (2, 3), (4, 5)] := by
  have hval : (vertexPositions 3 [((1 / 2 : ℝ), 1), (2, 3), (4, 5)]).get? 0 =
      some ((0 : ℝ), (1 : ℝ)) := by
    rw [vertexPositions, List.get?_map, initPositions_get? 3 _ 0 (by norm_num)]
    have hp1 : jsParseInt ((1 : ℝ) / 2) = 0 := by
      rw [jsParseInt, if_neg (by norm_num)]
      rw [Int.floor_eq_zero_iff]
      constructor <;> norm_num
    have hp2 : jsParseInt (1 : ℝ) = 1 := by
      rw [jsParseInt, if_neg (by norm_num)]
      exact Int.floor_one
    show some ((jsParseInt ((1 / 2 : ℝ), (1 : ℝ)).1 : ℝ),
      (jsParseInt ((1 / 2 : ℝ), (1 : ℝ)).2 : ℝ)) = some ((0 : ℝ), (1 : ℝ))
    rw [show ((1 / 2 : ℝ), (1 : ℝ)).1 = (1 / 2 : ℝ) from rfl,
      show ((1 / 2 : ℝ), (1 : ℝ)).2 = (1 : ℝ) from rfl, hp1, hp2]
    norm_num
  intro h
  rw [h] at hval
  have h2 : some ((1 / 2 : ℝ), (1 : ℝ)) = some ((0 : ℝ), (1 : ℝ)) := hval
  injection h2 with h3
  have h4 := congrArg Prod.fst h3
  norm_num at h4

/-! The persisted-settings model of the Rasterizer constructor. -/

/-- A parsed settings record: fields present in the stored JSON object. -/
structure SettingsP where
  sidesP : Option ℤ
  pointsP : Option (List (ℚ × ℚ))
  deriving DecidableEq

/-- The effective settings after merging with the defaults
`{sides: 4, points: undefined}`. -/
structure Settings where
  sides : ℤ
  points : Option (List (ℚ × ℚ))
  deriving DecidableEq

/-- Object.assign of the parsed record over the defaults. -/
def mergeSettings (p : SettingsP) : Settings :=
  ⟨p.sidesP.getD 4, p.pointsP⟩

/-- The settings load of the Rasterizer constructor:
`JSON.parse(localStorage.getItem(key) || "{}")` merged over the defaults.
A missing or empty stored string is replaced by the empty object text; a
parse error propagates, because the source has no try/catch here. -/
def loadSettings (jsonParse : String → Except String SettingsP)
    (stored : Option String) : Except String Settings :=
  let raw := match stored with
    | none => "{}"
    | some s => if s = "" then "{}" else s
  (jsonParse raw).map mergeSettings

/-- Modelled from the spec: JSON.parse is a host builtin absent from src/.
Per the spec the persisted record is a JSON text holding {sides, points};
this minimal model parses the empty object text and raises SyntaxError on
any other input, which is all the claims exercise. -/
def specJsonParse : String → Except String SettingsP :=
  fun s => if s = "{}" then Except.ok ⟨none, none⟩ else Except.error "SyntaxError"

/-- C9 (amended): when the persisted record is absent (or the empty
string), the constructor silently falls back to the defaults sides = 4 and
points = undefined; but a malformed stored string makes JSON.parse raise,
and the error propagates out of the constructor uncaught, so malformed
data is not silently recovered. -/
theorem c9_settings_fallback (jsonParse : String → Except String SettingsP) :
    (jsonParse "{}" = Except.ok ⟨none, none⟩ →
      loadSettings jsonParse none = Except.ok ⟨4, none⟩) ∧
      ∀ s e, s ≠ "" → jsonParse s = Except.error e →
        loadSettings jsonParse (some s) = Except.error e := by
  constructor
  · intro h
    simp [loadSettings, h, mergeSettings, Except.map]
  · intro s e hs he
    simp [loadSettings, hs, he, Except.map]

theorem c9_witness :
    loadSettings specJsonParse none = Except.ok ⟨4, none⟩ := by
  exact (c9_settings_fallback specJsonParse).1 rfl

/-- C9 (counterexample to the claim as stated): a malformed persisted
string makes the settings load fail with the parse error instead of
silently producing the defaults. -/
theorem c9_counterexample :
    loadSettings specJsonParse (some "][") = Except.error "SyntaxError" ∧
      (Except.error "SyntaxError" : Except String Settings) ≠
        Except.ok ⟨4, none⟩ := by
  constructor
  · simp [loadSettings, specJsonParse, Except.map]
  · exact fun h => Except.noConfusion h

